import Mathlib

/-!
Verification of the maximum-flow engine of the `tshita/algorithm` repository.

This file shallowly embeds the residual-network data structure and the four
augmenting-path solvers (`FordFulkerson`, `EdmondsKarp`, `Dinic`,
`CapacityScalingAlgorithm`) together with the lower-bound reduction
(`MaximumFlowWithLowerBound`) into Lean, and proves or refutes the frozen
specification claims about them.

Embedding conventions:
* `FordFulkerson`, `EdmondsKarp` and `Dinic` declare a textually identical
  `Edge` record (fields `src`, `dst`, `rev`, capacity) and identical
  `add_arc` / `add_edge` members; they are embedded once as a generic arc
  store `Net α` with `α` the per-arc payload.  For those three solvers the
  payload is the single capacity field, modelled as `Int` (the C++ `Weight`
  template is instantiated at signed integer types in the drivers; arithmetic
  never overflows a 64-bit signed value in the inputs we evaluate, so `Int`
  is used without an explicit wrap).
* `CapacityScalingAlgorithm` carries the payload `(cap, cap_aux, is_original)`
  and `static_assert`s an unsigned `Weight`; its arithmetic is modelled on
  `Nat` with explicit reduction mod `2 ^ 64` (the driver instantiates
  `unsigned long long`) exactly where C++ unsigned wraparound can occur.
* C++ `while` loops and recursive depth-first searches become structurally
  recursive functions on an explicit fuel argument; functions whose C++
  counterpart's termination is not locally obvious return `Option`, and
  `none` means the fuel ran out (the concrete evaluations below always
  supply sufficient fuel, so `some` results reproduce the C++ behaviour).
  Breadth-first-search loops return their accumulator when the fuel runs
  out; all theorems about them are proved for every fuel value.
* Out-of-range vector accesses are undefined behaviour in C++; the embedding
  makes the enclosing guard fail (skip the arc) in that case, and all
  general theorems assume well-formedness (`WF`) so that the case never
  arises.
-/

namespace MaxFlowSpec

/-- One directed arc of the residual network.  `src`, `dst`, `rev` are the
C++ `int` members (`rev` is the index of the paired reverse arc inside
`adj[dst]`); `data` is the solver-specific remainder of the record (for
`FordFulkerson`/`EdmondsKarp`/`Dinic` the single capacity field `cap`,
for `CapacityScalingAlgorithm` the triple `cap`/`cap_aux`/`is_original`). -/
structure Arc (α : Type) where
  src : Nat
  dst : Nat
  rev : Nat
  data : α
  deriving Repr, DecidableEq

/-- The adjacency-list graph shared by all solvers: `n` vertices and, for
each vertex, its exclusive list of incident arcs (C++
`std::vector<std::vector<Edge>> adj`). -/
structure Net (α : Type) where
  n : Nat
  adj : List (List (Arc α))
  deriving Repr, DecidableEq

/-- Fresh network with `n` empty adjacency lists (the C++ constructor). -/
def initNet (α : Type) (n : Nat) : Net α :=
  ⟨n, List.replicate n []⟩

/-- Adjacency list of vertex `v` (empty when `v` is out of range). -/
def getAdj (net : Net α) (v : Nat) : List (Arc α) :=
  net.adj.getD v []

/-- The arc stored at position `i` of `adj[v]`, if any. -/
def arcAt? (net : Net α) (v i : Nat) : Option (Arc α) :=
  (getAdj net v).get? i

/-- Append an arc to `adj[v]` (C++ `adj[v].emplace_back(...)`). -/
def pushArc (net : Net α) (v : Nat) (a : Arc α) : Net α :=
  { net with adj := net.adj.set v (getAdj net v ++ [a]) }

/-- Replace the payload of the arc at `adj[v][i]` by `f` of its old value,
leaving `src`/`dst`/`rev` untouched.  This is the only mutation the solvers
ever perform after construction (they assign to capacity fields only). -/
def updData (net : Net α) (v i : Nat) (f : α → α) : Net α :=
  match (getAdj net v).get? i with
  | none => net
  | some a =>
      { net with adj := net.adj.set v ((getAdj net v).set i { a with data := f a.data }) }

/-- Embedding of the `add_arc` member shared verbatim by `FordFulkerson`,
`EdmondsKarp`, `Dinic` and `CapacityScalingAlgorithm`:

    adj[src].emplace_back(Edge(src, dst, fd, adj[dst].size()));
    adj[dst].emplace_back(Edge(dst, src, bd, adj[src].size() - 1));

The payloads `fd`/`bd` of the forward and backward arc are parameters
because the four structs differ only there.  The two `size()` reads happen
exactly at the C++ sequence points (in particular `src = dst` reproduces the
C++ self-linked `rev` index). -/
def addArcG (net : Net α) (u v : Nat) (fd bd : α) : Net α :=
  let r1 := (getAdj net v).length
  let net1 := pushArc net u ⟨u, v, r1, fd⟩
  let r2 := (getAdj net1 u).length - 1
  pushArc net1 v ⟨v, u, r2, bd⟩

end MaxFlowSpec

namespace MaxFlowSpec

/-! ### The `FordFulkerson` / `EdmondsKarp` / `Dinic` residual network

Payload = the single capacity field (`Weight cap`, named `weight` in
`Dinic`), modelled as `Int`. -/

/-- A residual network whose arcs carry one signed capacity. -/
abbrev FNet : Type := Net Int

/-- Capacity stored at `adj[v][i]` (`0` when out of range; all uses are
guarded by range conditions). -/
def capAt (net : FNet) (v i : Nat) : Int :=
  match arcAt? net v i with
  | none => 0
  | some a => a.data

/-- `add_arc(src, dst, cap)` of `FordFulkerson`/`EdmondsKarp`/`Dinic`:
forward capacity `cap`, reverse capacity `0`. -/
def add_arc (net : FNet) (u v : Nat) (cap : Int) : FNet :=
  addArcG net u v cap 0

/-- `add_edge(src, dst, cap)`: two `add_arc` calls, one per direction. -/
def add_edge (net : FNet) (u v : Nat) (cap : Int) : FNet :=
  add_arc (add_arc net u v cap) v u cap

/-- Build a network by a sequence of `add_arc` calls on a fresh `n`-vertex
network. -/
def buildNet (n : Nat) (arcs : List (Nat × Nat × Int)) : FNet :=
  arcs.foldl (fun net e => add_arc net e.1 e.2.1 e.2.2) (initNet Int n)

/-- The two capacity updates that every augmentation in the three
signed-capacity solvers performs for one arc (C++
`e.cap -= d; adj[e.dst][e.rev].cap += d;`).  The reverse position is read
from the arc's `dst`/`rev` fields before the writes, as in the source. -/
def augment (net : FNet) (v i : Nat) (d : Int) : FNet :=
  match arcAt? net v i with
  | none => net
  | some e => updData (updData net v i (fun c => c - d)) e.dst e.rev (fun c => c + d)

/-- The C++ default `INF` member for `Weight = long long`:
`std::numeric_limits<long long>::max() / 10`. -/
def ffINF : Int := 922337203685477580

end MaxFlowSpec

namespace MaxFlowSpec
namespace FordFulkerson

/-- One pass of the `for (auto &&e : adj[v])` loop of `FordFulkerson::Dfs`
(the generic loop body is also reused by the recursion: `go` is the
recursive call on the destination vertex).  `k` counts the remaining
iterations, `i` is the current index into `adj[v]`; the arc is re-read from
the current network at each step, matching the C++ iteration by reference
(augmentations during recursion change capacity fields only, never the list
lengths). -/
def DfsLoop (go : FNet → Nat → Int → List Bool → Int × FNet × List Bool)
    (v : Nat) (f : Int) :
    Nat → Nat → FNet → List Bool → Int × FNet × List Bool
  | 0, _, net, vis => (0, net, vis)
  | k + 1, i, net, vis =>
      match (getAdj net v).get? i with
      | none => (0, net, vis)
      | some e =>
          if ((vis.get? e.dst).getD true) = false ∧ 0 < e.data then
            match go net e.dst (min f e.data) vis with
            | (d, net1, vis1) =>
                if 0 < d then (d, augment net1 v i d, vis1)
                else DfsLoop go v f k (i + 1) net1 vis1
          else DfsLoop go v f k (i + 1) net vis

/-- `FordFulkerson::Dfs(v, f, t, visited)`: depth-first search for an
augmenting path, augmenting on the unwind.  The fuel bounds the recursion
depth; the callers pass `net.n + 1`, which the `visited` discipline never
exhausts. -/
def Dfs : Nat → FNet → Nat → Int → Nat → List Bool → Int × FNet × List Bool
  | 0, net, _, _, _, vis => (0, net, vis)
  | fuel + 1, net, v, f, t, vis =>
      if v = t then (f, net, vis)
      else
        let vis1 := vis.set v true
        DfsLoop (fun net' w f' vis' => Dfs fuel net' w f' t vis') v f
          (getAdj net v).length 0 net vis1

/-- The `while (true)` loop of `FordFulkerson::MaximumFlow` with the
accumulated flow as a parameter; `none` when the fuel runs out. -/
def MFLoop (s t : Nat) (inf : Int) : Nat → FNet → Int → Option (Int × FNet)
  | 0, _, _ => none
  | fuel + 1, net, flow =>
      match Dfs (net.n + 1) net s inf t (List.replicate net.n false) with
      | (f, net1, _) =>
          if f ≤ 0 then some (flow, net1)
          else MFLoop s t inf fuel net1 (flow + f)

/-- `FordFulkerson::MaximumFlow(s, t)`: returns the flow value and the
final residual network (the mutated object state). -/
def MaximumFlow (fuel : Nat) (net : FNet) (s t : Nat) (inf : Int := ffINF) :
    Option (Int × FNet) :=
  MFLoop s t inf fuel net 0

end FordFulkerson
end MaxFlowSpec

namespace MaxFlowSpec
namespace EdmondsKarp

/-- The inner `for (const auto &e : adj[v])` loop of the breadth-first
search of `EdmondsKarp::Bfs`: skips arcs with non-positive capacity, sets
`prev[t]` and reports `reached` on the first arc into `t`, records a parent
pointer and enqueues each vertex met for the first time.  Returns the
updated `prev`, the enqueued vertices in order, and the `reached` flag. -/
def BfsScan (t v : Nat) :
    List (Arc Int) → List Int → List Nat → (List Int × List Nat × Bool)
  | [], prev, adds => (prev, adds, false)
  | e :: es, prev, adds =>
      if e.data ≤ 0 then BfsScan t v es prev adds
      else if e.dst = t then (prev.set t (Int.ofNat v), adds, true)
      else if (prev.get? e.dst).getD 0 = -1 then
        BfsScan t v es (prev.set e.dst (Int.ofNat v)) (adds ++ [e.dst])
      else BfsScan t v es prev adds

/-- The `while (!reached && !que.empty())` loop of `EdmondsKarp::Bfs`.
When the fuel runs out the current `prev` array is returned; the C++ loop
pops each vertex at most once, so the caller's fuel `n + 2` is never
exhausted, and every theorem below holds for all fuel values. -/
def BfsLoop (net : FNet) (t : Nat) :
    Nat → List Int → List Nat → List Int
  | 0, prev, _ => prev
  | _ + 1, prev, [] => prev
  | fuel + 1, prev, v :: queue =>
      match BfsScan t v (getAdj net v) prev [] with
      | (prev1, adds, reached) =>
          if reached then prev1
          else BfsLoop net t fuel prev1 (queue ++ adds)

/-- The bottleneck walk of `EdmondsKarp::Bfs`
(`for (int v = t; v != s; v = prev[v])`): at each step the **first** arc of
`adj[prev[v]]` with head `v` enters the minimum and the inner loop
`break`s.  `none` when `prev` does not lead back to `s` within the fuel
(the C++ walk would read out of range in that case). -/
def WalkMin (net : FNet) (prev : List Int) (s : Nat) :
    Nat → Nat → Int → Option Int
  | 0, _, _ => none
  | fuel + 1, v, f =>
      if v = s then some f
      else
        match prev.get? v with
        | none => none
        | some pv =>
            if pv < 0 then none
            else
              let u := pv.toNat
              let f1 :=
                match (getAdj net u).find? (fun e => e.dst = v) with
                | some e => min f e.data
                | none => f
              WalkMin net prev s fuel u f1

/-- The body of the update walk of `EdmondsKarp::Bfs` at one step: the C++
loop `for (auto &&e : adj[prev[v]]) if (e.dst == v) { e.cap -= f; ... }`
has **no** `break`, so every arc of `adj[u]` with head `v` is augmented.
`k` counts the remaining positions, `i` is the index; arcs are re-read from
the current network. -/
def UpdAll (u v : Nat) (f : Int) : Nat → Nat → FNet → FNet
  | 0, _, net => net
  | k + 1, i, net =>
      match arcAt? net u i with
      | none => net
      | some e =>
          let net1 := if e.dst = v then augment net u i f else net
          UpdAll u v f k (i + 1) net1

/-- The update walk of `EdmondsKarp::Bfs`
(`for (int v = t; v != s; v = prev[v])` applying `UpdAll` at each step). -/
def WalkUpd (prev : List Int) (s : Nat) (f : Int) :
    Nat → Nat → FNet → Option FNet
  | 0, _, _ => none
  | fuel + 1, v, net =>
      if v = s then some net
      else
        match prev.get? v with
        | none => none
        | some pv =>
            if pv < 0 then none
            else
              let u := pv.toNat
              WalkUpd prev s f fuel u (UpdAll u v f (getAdj net u).length 0 net)

/-- `EdmondsKarp::Bfs(s, t)`: breadth-first search for a shortest
augmenting path, followed by the bottleneck walk and the update walk;
returns the flow increase and the mutated network.  `prev[s]` is set to `0`
as the visited marker, exactly as in the source. -/
def Bfs (net : FNet) (s t : Nat) (inf : Int) : Option (Int × FNet) :=
  let prev0 := (List.replicate net.n (-1 : Int)).set s 0
  let prev := BfsLoop net t (net.n + 2) prev0 [s]
  if (prev.get? t).getD 0 = -1 then some (0, net)
  else
    match WalkMin net prev s (net.n + 1) t inf with
    | none => none
    | some f =>
        match WalkUpd prev s f (net.n + 1) t net with
        | none => none
        | some net1 => some (f, net1)

/-- The `while (true)` loop of `EdmondsKarp::MaximumFlow`. -/
def MFLoop (s t : Nat) (inf : Int) : Nat → FNet → Int → Option (Int × FNet)
  | 0, _, _ => none
  | fuel + 1, net, flow =>
      match Bfs net s t inf with
      | none => none
      | some (f, net1) =>
          if f ≤ 0 then some (flow, net1)
          else MFLoop s t inf fuel net1 (flow + f)

/-- `EdmondsKarp::MaximumFlow(s, t)`. -/
def MaximumFlow (fuel : Nat) (net : FNet) (s t : Nat) (inf : Int := ffINF) :
    Option (Int × FNet) :=
  MFLoop s t inf fuel net 0

end EdmondsKarp
end MaxFlowSpec

namespace MaxFlowSpec
namespace Dinic

/-- The inner `for (const auto &e : adj[v])` loop of `Dinic::LevelGraph`:
assigns `level[e.dst] = level[v] + 1` and enqueues `e.dst` for every
positive arc into an unlevelled vertex. -/
def LevelScan (v : Nat) :
    List (Arc Int) → List Int → List Nat → (List Int × List Nat)
  | [], level, adds => (level, adds)
  | e :: es, level, adds =>
      if 0 < e.data ∧ (level.get? e.dst).getD 0 = -1 then
        LevelScan v es (level.set e.dst (((level.get? v).getD 0) + 1)) (adds ++ [e.dst])
      else LevelScan v es level adds

/-- The queue loop of `Dinic::LevelGraph`; returns the level assignment.
When the fuel runs out the current levels are returned; the caller's fuel
`n + 2` is never exhausted, and all theorems hold for every fuel. -/
def LevelLoop (net : FNet) : Nat → List Int → List Nat → List Int
  | 0, level, _ => level
  | _ + 1, level, [] => level
  | fuel + 1, level, v :: queue =>
      match LevelScan v (getAdj net v) level [] with
      | (level1, adds) => LevelLoop net fuel level1 (queue ++ adds)

/-- `Dinic::LevelGraph(s, level)`: breadth-first levelling of the current
residual network from `s`. -/
def LevelGraph (net : FNet) (s : Nat) : List Int :=
  LevelLoop net (net.n + 2) ((List.replicate net.n (-1 : Int)).set s 0) [s]

/-- One pass of the resume-pointer loop
`for ( ; iter[v] < adj[v].size(); ++iter[v])` of `Dinic::AugmentingPath`.
`k` bounds the remaining iterations (the list length never changes during
augmentation); the current index is read from `iter`, which persists across
calls within a phase.  On a successful recursive call the function returns
without incrementing `iter[v]`, exactly as the C++ `return d;` skips the
`++iter[v]`. -/
def AugLoop (go : FNet → Nat → Int → List Nat → Int × FNet × List Nat)
    (level : List Int) (v : Nat) (f : Int) :
    Nat → FNet → List Nat → Int × FNet × List Nat
  | 0, net, iter => (0, net, iter)
  | k + 1, net, iter =>
      let i := (iter.get? v).getD 0
      match (getAdj net v).get? i with
      | none => (0, net, iter)
      | some e =>
          if 0 < e.data ∧ (level.get? v).getD 0 < (level.get? e.dst).getD (-1) then
            match go net e.dst (min f e.data) iter with
            | (d, net1, iter1) =>
                if 0 < d then (d, augment net1 v i d, iter1)
                else AugLoop go level v f k net1 (iter1.set v (((iter1.get? v).getD 0) + 1))
          else AugLoop go level v f k net (iter.set v (i + 1))

/-- `Dinic::AugmentingPath(v, flow, t, level, iter)`: depth-first search in
the level graph with resume pointers, augmenting on the unwind. -/
def AugmentingPath : Nat → FNet → Nat → Int → Nat → List Int → List Nat →
    Int × FNet × List Nat
  | 0, net, _, _, _, _, iter => (0, net, iter)
  | fuel + 1, net, v, f, t, level, iter =>
      if v = t then (f, net, iter)
      else
        AugLoop (fun net' w f' iter' => AugmentingPath fuel net' w f' t level iter')
          level v f ((getAdj net v).length - (iter.get? v).getD 0) net iter

/-- The inner `while ((blocking_flow = AugmentingPath(...)) > 0)` loop of
`Dinic::MaximumFlow`. -/
def PhaseLoop (s t : Nat) (inf : Int) (level : List Int) :
    Nat → FNet → List Nat → Int → Option (Int × FNet)
  | 0, _, _, _ => none
  | fuel + 1, net, iter, flow =>
      match AugmentingPath (net.n + 1) net s inf t level iter with
      | (bf, net1, iter1) =>
          if bf ≤ 0 then some (flow, net1)
          else PhaseLoop s t inf level fuel net1 iter1 (flow + bf)

/-- The outer `while (true)` loop of `Dinic::MaximumFlow`: build a level
graph, stop if `t` is unlevelled, otherwise saturate a blocking flow with
fresh resume pointers and repeat. -/
def MFLoop (s t : Nat) (inf : Int) : Nat → FNet → Int → Option (Int × FNet)
  | 0, _, _ => none
  | fuel + 1, net, flow =>
      let level := LevelGraph net s
      if (level.get? t).getD 0 = -1 then some (flow, net)
      else
        match PhaseLoop s t inf level (fuel + 1) net (List.replicate net.n 0) flow with
        | none => none
        | some (flow1, net1) => MFLoop s t inf fuel net1 flow1

/-- `Dinic::MaximumFlow(s, t)`. -/
def MaximumFlow (fuel : Nat) (net : FNet) (s t : Nat) (inf : Int := ffINF) :
    Option (Int × FNet) :=
  MFLoop s t inf fuel net 0

end Dinic
end MaxFlowSpec

namespace MaxFlowSpec
namespace CapacityScaling

/-- Payload of a `CapacityScalingAlgorithm` arc: the immutable input
capacity `cap`, the auxiliary-network capacity `cap_aux` (initialised to
`0`), and the `is_original` marker.  `Weight` is `unsigned long long` in
the driver (the struct `static_assert`s unsignedness), so both capacity
fields are natural numbers reduced mod `2 ^ 64`. -/
structure CSD where
  cap : Nat
  cap_aux : Nat
  is_original : Bool
  deriving Repr, DecidableEq

/-- A capacity-scaling residual network. -/
abbrev CSNet : Type := Net CSD

/-- The modulus of C++ `unsigned long long` arithmetic. -/
def W64 : Nat := 18446744073709551616

/-- C++ unsigned subtraction `a - b` mod `2 ^ 64` (operands already reduced). -/
def wsub (a b : Nat) : Nat := (a + (W64 - b % W64)) % W64

/-- `CapacityScalingAlgorithm::add_arc(src, dst, cap)`: **both** the
forward and the reverse arc store the input capacity in their `cap` field
(the reverse arc's `cap` is what `DoubleFlowAndMakeAuxiliaryNetwork` reads);
`cap_aux` starts at `0`; only the forward arc is `is_original`. -/
def add_arc (net : CSNet) (u v : Nat) (cap : Nat) : CSNet :=
  addArcG net u v ⟨cap, 0, true⟩ ⟨cap, 0, false⟩

/-- `CapacityScalingAlgorithm::add_edge(src, dst, cap)`. -/
def add_edge (net : CSNet) (u v : Nat) (cap : Nat) : CSNet :=
  add_arc (add_arc net u v cap) v u cap

/-- Build a capacity-scaling network by a sequence of `add_arc` calls. -/
def buildCS (n : Nat) (arcs : List (Nat × Nat × Nat)) : CSNet :=
  arcs.foldl (fun net e => add_arc net e.1 e.2.1 e.2.2) (initNet CSD n)

/-- All positions `(v, i)` of the adjacency table, in the iteration order
of the C++ double loop `for (v) for (e : adj[v])` (list lengths never
change after construction). -/
def slots (net : CSNet) : List (Nat × Nat) :=
  (List.range net.n).flatMap fun v =>
    (List.range (getAdj net v).length).map fun i => (v, i)

/-- The body of `DoubleFlowAndMakeAuxiliaryNetwork` for one arc position:
for a non-original arc `e`, compute the `k`-th-iteration auxiliary capacity
`e.cap >> (NUM_ITER - k)` of the pair, double `e.cap_aux`, and set the
paired (original) arc's `cap_aux` to their difference, in C++ unsigned
arithmetic. -/
def dfStep (numIter k : Nat) (net : CSNet) (p : Nat × Nat) : CSNet :=
  match arcAt? net p.1 p.2 with
  | none => net
  | some e =>
      if e.data.is_original then net
      else
        let capAux := e.data.cap >>> (numIter - k)
        let newAux := (2 * e.data.cap_aux) % W64
        let net1 := updData net p.1 p.2 (fun d => { d with cap_aux := newAux })
        updData net1 e.dst e.rev (fun d => { d with cap_aux := wsub capAux newAux })

/-- `CapacityScalingAlgorithm::DoubleFlowAndMakeAuxiliaryNetwork(k)`. -/
def DoubleFlowAndMakeAuxiliaryNetwork (numIter k : Nat) (net : CSNet) : CSNet :=
  (slots net).foldl (dfStep numIter k) net

/-- The capacity-transfer pair of writes of `CapacityScalingAlgorithm::Dfs`
(`e.cap_aux -= d; adj[e.dst][e.rev].cap_aux += d;`) in unsigned
arithmetic. -/
def csAugment (net : CSNet) (v i : Nat) (d : Nat) : CSNet :=
  match arcAt? net v i with
  | none => net
  | some e =>
      updData (updData net v i (fun x => { x with cap_aux := wsub x.cap_aux d }))
        e.dst e.rev (fun x => { x with cap_aux := (x.cap_aux + d) % W64 })

/-- The arc loop of `CapacityScalingAlgorithm::Dfs` (same shape as the
Ford–Fulkerson one, on `cap_aux`). -/
def DfsLoop (go : CSNet → Nat → Nat → List Bool → Nat × CSNet × List Bool)
    (v : Nat) (f : Nat) :
    Nat → Nat → CSNet → List Bool → Nat × CSNet × List Bool
  | 0, _, net, vis => (0, net, vis)
  | k + 1, i, net, vis =>
      match (getAdj net v).get? i with
      | none => (0, net, vis)
      | some e =>
          if ((vis.get? e.dst).getD true) = false ∧ 0 < e.data.cap_aux then
            match go net e.dst (min f e.data.cap_aux) vis with
            | (d, net1, vis1) =>
                if 0 < d then (d, csAugment net1 v i d, vis1)
                else DfsLoop go v f k (i + 1) net1 vis1
          else DfsLoop go v f k (i + 1) net vis

/-- `CapacityScalingAlgorithm::Dfs(v, f, t, visited)`. -/
def Dfs : Nat → CSNet → Nat → Nat → Nat → List Bool → Nat × CSNet × List Bool
  | 0, net, _, _, _, vis => (0, net, vis)
  | fuel + 1, net, v, f, t, vis =>
      if v = t then (f, net, vis)
      else
        let vis1 := vis.set v true
        DfsLoop (fun net' w f' vis' => Dfs fuel net' w f' t vis') v f
          (getAdj net v).length 0 net vis1

/-- The saturation loop (`while (true) { ... Dfs ... }`) inside one scaling
iteration of `CapacityScalingAlgorithm::MaximumFlow`. -/
def SatLoop (s t : Nat) (inf : Nat) : Nat → CSNet → Nat → Option (Nat × CSNet)
  | 0, _, _ => none
  | fuel + 1, net, flow =>
      match Dfs (net.n + 1) net s inf t (List.replicate net.n false) with
      | (f, net1, _) =>
          if f = 0 then some (flow, net1)
          else SatLoop s t inf fuel net1 ((flow + f) % W64)

/-- The `for (unsigned k_th = 1; k_th <= NUM_ITER; ++k_th)` loop of
`CapacityScalingAlgorithm::MaximumFlow`, iterating over the list of
remaining `k` values. -/
def IterLoop (numIter : Nat) (s t : Nat) (inf : Nat) (fuel : Nat) :
    List Nat → CSNet → Nat → Option (Nat × CSNet)
  | [], net, flow => some (flow, net)
  | k :: ks, net, flow =>
      let net1 := DoubleFlowAndMakeAuxiliaryNetwork numIter k net
      match SatLoop s t inf fuel net1 ((2 * flow) % W64) with
      | none => none
      | some (flow1, net2) => IterLoop numIter s t inf fuel ks net2 flow1

/-- Fueled base-2 logarithm (`log2f fuel n` with `n ≤ fuel` computes
`Nat.log2 n`, by structural recursion so that concrete runs reduce). -/
def log2f : Nat → Nat → Nat
  | 0, _ => 0
  | fuel + 1, n => if 2 ≤ n then log2f fuel (n / 2) + 1 else 0

/-- Base-2 logarithm, `log2w n = Nat.log2 n` (see `log2f_eq`). -/
def log2w (n : Nat) : Nat := log2f n n

/-- The maximum `cap` over all original arcs (the `max_cap` computation at
the head of `CapacityScalingAlgorithm::MaximumFlow`). -/
def maxCap (net : CSNet) : Nat :=
  (slots net).foldl
    (fun m p =>
      match arcAt? net p.1 p.2 with
      | none => m
      | some e => if e.data.is_original then max m e.data.cap else m) 0

/-- `CapacityScalingAlgorithm::MaximumFlow(s, t)`.  The iteration count is
`NUM_ITER = std::floor(std::log2(max_cap) + 1)`, which equals
`Nat.log2 max_cap + 1` (= `log2w max_cap + 1`, see `log2f_eq`) for positive
`max_cap`; for `max_cap = 0` the C++ code evaluates `std::log2(0) = -inf`
and converts it to `unsigned`, which is undefined behaviour — modelled as
`none`.  The C++ default `INF` for `unsigned long long` is `max / 10`. -/
def MaximumFlow (fuel : Nat) (net : CSNet) (s t : Nat)
    (inf : Nat := 1844674407370955161) : Option (Nat × CSNet) :=
  let mc := maxCap net
  if mc = 0 then none
  else
    let numIter := log2w mc + 1
    IterLoop numIter s t inf fuel ((List.range numIter).map (· + 1)) net 0

end CapacityScaling
end MaxFlowSpec

namespace MaxFlowSpec
namespace LowerBound

/-- State of a `MaximumFlowWithLowerBound<Dinic<Weight>>` object: the
wrapped solver's network on `n + 2` vertices (the driver instantiates the
`Algorithm` parameter with `Dinic`), the super source `n`, the super sink
`n + 1`, and the accumulated sum of lower bounds. -/
structure LBNet where
  algo : FNet
  SuperSource : Nat
  SuperSink : Nat
  sum_lb : Int
  deriving Repr, DecidableEq

/-- The `MaximumFlowWithLowerBound(n)` constructor. -/
def mkLB (n : Nat) : LBNet :=
  ⟨initNet Int (n + 2), n, n + 1, 0⟩

/-- `MaximumFlowWithLowerBound::add_arc(src, dst, lb, ub)`.  The C++
`assert(0 <= lb && lb <= ub)` aborts the process on violation, modelled as
`none`; `src = dst` and `ub = 0` are silent no-ops. -/
def add_arc (lb : LBNet) (src dst : Nat) (lo hi : Int) : Option LBNet :=
  if 0 ≤ lo ∧ lo ≤ hi then
    if src = dst ∨ hi = 0 then some lb
    else
      some { lb with
              algo := MaxFlowSpec.add_arc
                (MaxFlowSpec.add_arc
                  (MaxFlowSpec.add_arc lb.algo src dst (hi - lo))
                  lb.SuperSource dst lo)
                src lb.SuperSink lo,
              sum_lb := lb.sum_lb + lo }
  else none

/-- The first two max-flow sub-computations of
`MaximumFlowWithLowerBound::MaximumFlow` (`f1` from the super source to the
super sink, then `f2` from `s` to the super sink), with the network state
threaded through. -/
def Phase12 (fuel : Nat) (lb : LBNet) (s : Nat) (inf : Int) :
    Option (Int × Int × FNet) :=
  match Dinic.MaximumFlow fuel lb.algo lb.SuperSource lb.SuperSink inf with
  | none => none
  | some (f1, g1) =>
      match Dinic.MaximumFlow fuel g1 s lb.SuperSink inf with
      | none => none
      | some (f2, g2) => some (f1, f2, g2)

/-- `MaximumFlowWithLowerBound::MaximumFlow(s, t)`: `-1` signals
infeasibility.  The four Dinic invocations are strictly sequential and the
second feasibility check (`f1 + f3 != sum_lb`) and the final computation
`f4` are only reached when the first check passes. -/
def MaximumFlow (fuel : Nat) (lb : LBNet) (s t : Nat) (inf : Int := ffINF) :
    Option (Int × LBNet) :=
  match Phase12 fuel lb s inf with
  | none => none
  | some (f1, f2, g2) =>
      if f1 + f2 ≠ lb.sum_lb then some (-1, { lb with algo := g2 })
      else
        match Dinic.MaximumFlow fuel g2 lb.SuperSource t inf with
        | none => none
        | some (f3, g3) =>
            if f1 + f3 ≠ lb.sum_lb then some (-1, { lb with algo := g3 })
            else
              match Dinic.MaximumFlow fuel g3 s t inf with
              | none => none
              | some (f4, g4) => some (f2 + f4, { lb with algo := g4 })

/-- Build an `LBNet` from a list of `(src, dst, lb, ub)` quadruples. -/
def buildLB (n : Nat) (arcs : List (Nat × Nat × Int × Int)) : Option LBNet :=
  arcs.foldlM (fun g e => add_arc g e.1 e.2.1 e.2.2.1 e.2.2.2) (mkLB n)

end LowerBound
end MaxFlowSpec

namespace MaxFlowSpec

/-! ### Structural predicates -/

/-- Well-formedness of the reverse-arc linkage, established by `add_arc`
for distinct endpoints: every stored arc has `src` equal to its list's
vertex, an in-range head distinct from its tail, and its `rev` index points
to an arc of `adj[dst]` that points back.  (A self-loop `add_arc(v, v, c)`
breaks this: the forward arc's `rev` then indexes the forward arc itself —
see the counterexample for claim C5.) -/
def WF (net : Net α) : Prop :=
  net.adj.length = net.n ∧
  ∀ v i a, arcAt? net v i = some a →
    a.src = v ∧ a.dst < net.n ∧ a.dst ≠ v ∧
    ∃ b, arcAt? net a.dst a.rev = some b ∧ b.dst = v ∧ b.rev = i

/-- The sum of the residual capacity of the arc at `adj[v][i]` and of its
paired reverse arc (`0` when the slot is empty).  The design invariant of
§3 of the specification is that this quantity stays equal to the original
total capacity along that direction. -/
def pairSum (net : FNet) (v i : Nat) : Int :=
  match arcAt? net v i with
  | none => 0
  | some a => a.data + capAt net a.dst a.rev

/-- All residual capacities are non-negative. -/
def Nonneg (net : FNet) : Prop :=
  ∀ v i a, arcAt? net v i = some a → 0 ≤ a.data

/-- No adjacency list contains two arcs with the same head (no parallel
arcs; note that already one `add_edge(u, v, c)` violates this, since it
puts both the forward arc of `u→v` and the reverse arc of `v→u` into
`adj[u]` with head `v`). -/
def NoParallel (net : FNet) : Prop :=
  ∀ v i j a b, arcAt? net v i = some a → arcAt? net v j = some b →
    i ≠ j → a.dst ≠ b.dst

/-- Residual reachability: a path of strictly positive residual arcs.
`maximumFlow` has run to completion from `s` to `t` exactly when
`¬ ResReach net s t`. -/
inductive ResReach (net : FNet) : Nat → Nat → Prop
  | refl (v : Nat) : ResReach net v v
  | cons {v t : Nat} (e : Arc Int) :
      e ∈ getAdj net v → 0 < e.data → ResReach net e.dst t → ResReach net v t

end MaxFlowSpec

namespace MaxFlowSpec
namespace CapacityScaling

/-- The sum of `cap_aux` of the arc at `adj[v][i]` and of its paired
reverse arc. -/
def auxPairSum (net : CSNet) (v i : Nat) : Nat :=
  match arcAt? net v i with
  | none => 0
  | some a =>
      a.data.cap_aux +
        (match arcAt? net a.dst a.rev with
         | none => 0
         | some b => b.data.cap_aux)

/-- The immutable part of a slot's payload: the input capacity `cap` and
the `is_original` flag (`DoubleFlowAndMakeAuxiliaryNetwork` and `Dfs` write
only `cap_aux`, so this projection never changes after construction). -/
def capFlagAt (net : CSNet) (v i : Nat) : Option (Nat × Bool) :=
  (arcAt? net v i).map fun a => (a.data.cap, a.data.is_original)

/-- Two scaling networks with identical `cap` and `is_original` data at
every slot. -/
def sameCaps (m net : CSNet) : Prop :=
  ∀ v i, capFlagAt m v i = capFlagAt net v i

/-- Capacity-scaling well-formedness: the structural `WF` linkage plus the
scaling-specific facts recorded by `add_arc` — the two arcs of a pair carry
the same input capacity `cap`, exactly one of them `is_original`, and input
capacities fit in 64 bits. -/
def CSWF (net : CSNet) : Prop :=
  WF net ∧
  ∀ v i a, arcAt? net v i = some a →
    a.data.cap < W64 ∧
    ∃ b, arcAt? net a.dst a.rev = some b ∧
      b.data.cap = a.data.cap ∧ b.data.is_original = !a.data.is_original

/-- The `cap_aux` pair sums listed for the original arcs, in construction
order of the adjacency table (used by the concrete bit-scaling
regression-test evaluations). -/
def auxTotals (net : CSNet) : List Nat :=
  ((slots net).filter fun p =>
      match arcAt? net p.1 p.2 with
      | some e => e.data.is_original
      | none => false).map
    fun p => auxPairSum net p.1 p.2

/-- The network state of `CapacityScalingAlgorithm::MaximumFlow` after `j`
complete scaling iterations (each being `DoubleFlowAndMakeAuxiliaryNetwork`
followed by the `Dfs` saturation loop), with iteration count `numIter`. -/
def IterStates (numIter s t inf fuel : Nat) (net : CSNet) : Nat → Option CSNet
  | 0 => some net
  | j + 1 =>
      match IterStates numIter s t inf fuel net j with
      | none => none
      | some m =>
          match SatLoop s t inf fuel (DoubleFlowAndMakeAuxiliaryNetwork numIter (j + 1) m) 0 with
          | none => none
          | some (_, m1) => some m1

/-- The network state at iteration `k` of the scaling loop immediately
after `DoubleFlowAndMakeAuxiliaryNetwork(k)` (the moment at which the
`k`-th restricted capacities have just been assigned). -/
def AfterDouble (numIter s t inf fuel : Nat) (net : CSNet) (k : Nat) : Option CSNet :=
  (IterStates numIter s t inf fuel net (k - 1)).map
    (DoubleFlowAndMakeAuxiliaryNetwork numIter k)

end CapacityScaling
end MaxFlowSpec

namespace MaxFlowSpec

/-! ### Auxiliary predicates used by the proofs -/

/-- The visited flag the depth-first searches read for vertex `x`
(out-of-range reads are treated as visited, so the search never recurses
out of range). -/
def visAt (vis : List Bool) (x : Nat) : Bool :=
  (vis.get? x).getD true

/-- The structural part of a slot (everything except the mutable payload). -/
def shapeAt (net : Net α) (v i : Nat) : Option (Nat × Nat × Nat) :=
  (arcAt? net v i).map fun a => (a.src, a.dst, a.rev)

/-- Two networks with identical arc structure (they may differ only in the
payloads); every capacity update preserves this. -/
def sameShape (net net' : Net α) : Prop :=
  ∀ v i, shapeAt net v i = shapeAt net' v i

/-- Facts the Edmonds–Karp breadth-first search establishes about its
parent-pointer array: every visited vertex `v ≠ s` has a non-negative
parent that is itself visited, a strictly smaller `rank` (its BFS
discovery layer), and a strictly positive arc from the parent to `v`. -/
def PrevChain (net : FNet) (prev : List Int) (s : Nat) (rank : Nat → Nat) : Prop :=
  ∀ v pv, prev.get? v = some pv → pv ≠ -1 → v ≠ s →
    0 ≤ pv ∧ (prev.get? pv.toNat).getD (-1) ≠ -1 ∧
    rank v = rank pv.toNat + 1 ∧
    ∃ a, a ∈ getAdj net pv.toNat ∧ a.dst = v ∧ 0 < a.data

/-- Postcondition record of `FordFulkerson::Dfs` (and of its arc loop) used
for the simultaneous induction: result bounds, no mutation on failure,
reachability on success, preservation of well-formedness, shapes and pair
sums, monotonicity of visited marks, growth of capacities out of
already-visited vertices, and preservation of non-negativity. -/
structure FFPost (t v : Nat) (f : Int) (net : FNet) (vis : List Bool)
    (r : Int × FNet × List Bool) : Prop where
  d_nonneg : 0 ≤ r.1
  d_le : r.1 ≤ f
  unchanged : r.1 = 0 → r.2.1 = net
  reach : 0 < r.1 → ResReach net v t
  wf : WF r.2.1
  pair : ∀ v' i', pairSum r.2.1 v' i' = pairSum net v' i'
  shape : sameShape r.2.1 net
  vismono : ∀ x, visAt vis x = true → visAt r.2.2 x = true
  mono : ∀ x y, visAt vis x = true → x ≠ v → capAt net x y ≤ capAt r.2.1 x y
  nonneg : Nonneg net → Nonneg r.2.1
  n_eq : r.2.1.n = net.n

/-- Postcondition record of `Dinic::AugmentingPath` (and of its arc loop):
as for Ford–Fulkerson, but the protection criterion for capacity growth is
the level order — capacities of arcs out of vertices of strictly smaller
level than the current vertex can only grow. -/
structure DinicPost (t v : Nat) (f : Int) (level : List Int) (net : FNet)
    (r : Int × FNet × List Nat) : Prop where
  d_nonneg : 0 ≤ r.1
  d_le : r.1 ≤ f
  unchanged : r.1 = 0 → r.2.1 = net
  reach : 0 < r.1 → ResReach net v t
  wf : WF r.2.1
  pair : ∀ v' i', pairSum r.2.1 v' i' = pairSum net v' i'
  shape : sameShape r.2.1 net
  mono : ∀ x y, (level.get? x).getD (-1) < (level.get? v).getD (-1) →
      capAt net x y ≤ capAt r.2.1 x y
  nonneg : Nonneg net → Nonneg r.2.1
  n_eq : r.2.1.n = net.n

/-- The `cap_aux` value stored at a slot (`0` when out of range). -/
def auxAt (net : CapacityScaling.CSNet) (v i : Nat) : Nat :=
  match arcAt? net v i with
  | none => 0
  | some a => a.data.cap_aux

/-- Postcondition record of `CapacityScalingAlgorithm::Dfs` (and of its arc
loop).  All `cap_aux` pair sums are assumed below `2 ^ 64`, so no unsigned
wraparound occurs: pair sums are preserved exactly and the flow pushed is
bounded by the argument bound. -/
structure CSPost (t v : Nat) (f : Nat) (net : CapacityScaling.CSNet)
    (vis : List Bool) (r : Nat × CapacityScaling.CSNet × List Bool) : Prop where
  d_le : r.1 ≤ f
  unchanged : r.1 = 0 → r.2.1 = net
  wf : WF r.2.1
  pair : ∀ v' i', CapacityScaling.auxPairSum r.2.1 v' i' = CapacityScaling.auxPairSum net v' i'
  shape : sameShape r.2.1 net
  vismono : ∀ x, visAt vis x = true → visAt r.2.2 x = true
  mono : ∀ x y, visAt vis x = true → x ≠ v → auxAt net x y ≤ auxAt r.2.1 x y
  n_eq : r.2.1.n = net.n
  caps : ∀ v' i', CapacityScaling.capFlagAt r.2.1 v' i' =
    CapacityScaling.capFlagAt net v' i'

end MaxFlowSpec

namespace MaxFlowSpec

/-! ### Structural lemmas about the arc store -/

theorem getAdj_eq_nil_of_le (net : Net α) (v : Nat) (h : net.adj.length ≤ v) :
    getAdj net v = [] := by
  simp [getAdj, List.getD_eq_getElem?_getD, List.getElem?_eq_none (by omega : net.adj.length ≤ v)]

theorem lt_length_of_arcAt?_isSome {net : Net α} {v i : Nat} {a : Arc α}
    (h : arcAt? net v i = some a) : v < net.adj.length := by
  by_contra hv
  rw [arcAt?, getAdj_eq_nil_of_le net v (by omega)] at h
  simp at h

theorem n_updData (net : Net α) (w k : Nat) (f : α → α) :
    (updData net w k f).n = net.n := by
  unfold updData
  cases (getAdj net w).get? k <;> rfl

theorem length_adj_updData (net : Net α) (w k : Nat) (f : α → α) :
    (updData net w k f).adj.length = net.adj.length := by
  unfold updData
  cases (getAdj net w).get? k <;> simp

/-- Master lemma: `updData` rewrites exactly the payload of the addressed
slot and leaves every other slot untouched. -/
theorem arcAt?_updData (net : Net α) (w k : Nat) (f : α → α) (v i : Nat) :
    arcAt? (updData net w k f) v i =
      if v = w ∧ i = k then (arcAt? net w k).map (fun a => { a with data := f a.data })
      else arcAt? net v i := by
  rcases hk : (getAdj net w).get? k with _ | a
  · have hup : updData net w k f = net := by unfold updData; rw [hk]
    rw [hup, show arcAt? net w k = none from hk]
    split <;> [skip; rfl]
    rename_i hvi
    obtain ⟨rfl, rfl⟩ := hvi
    simpa [arcAt?] using hk
  · have hup : updData net w k f =
        { net with adj := net.adj.set w ((getAdj net w).set k { a with data := f a.data }) } := by
      unfold updData; rw [hk]
    rw [hup]
    have hw : w < net.adj.length :=
      lt_length_of_arcAt?_isSome (show arcAt? net w k = some a from hk)
    rw [show arcAt? net w k = some a from hk]
    by_cases hv : v = w
    · subst hv
      have hadj : getAdj { net with adj := net.adj.set v ((getAdj net v).set k { a with data := f a.data }) } v
          = (getAdj net v).set k { a with data := f a.data } := by
        simp [getAdj, List.getD_eq_getElem?_getD, List.getElem?_set_self', hw,
          List.getElem?_eq_getElem hw]
      rw [arcAt?, hadj]
      by_cases hik : i = k
      · subst hik
        have hlt : i < (getAdj net v).length := by
          by_contra hno
          rw [List.get?_eq_getElem?, List.getElem?_eq_none (by omega)] at hk
          exact absurd hk (by simp)
        simp [List.get?_eq_getElem?, List.getElem?_set_self', hlt]
      · rw [if_neg (by tauto)]
        simp only [List.get?_eq_getElem?, arcAt?]
        exact List.getElem?_set_ne (by omega : k ≠ i)
    · have hadj : getAdj { net with adj := net.adj.set w ((getAdj net w).set k { a with data := f a.data }) } v
          = getAdj net v := by
        simp [getAdj, List.getD_eq_getElem?_getD, List.getElem?_set_ne (fun h => hv h.symm)]
      rw [if_neg (by tauto), arcAt?, hadj, arcAt?]

theorem WF_updData {net : Net α} (h : WF net) (w k : Nat) (f : α → α) :
    WF (updData net w k f) := by
  obtain ⟨hn, harc⟩ := h
  refine ⟨by rw [length_adj_updData, n_updData]; exact hn, ?_⟩
  intro v i a ha
  rw [arcAt?_updData] at ha
  by_cases hvi : v = w ∧ i = k
  · rw [if_pos hvi] at ha
    rcases hvk : arcAt? net w k with _ | a0
    · rw [hvk] at ha; simp at ha
    · rw [hvk] at ha
      simp only [Option.map_some'] at ha
      obtain ⟨rfl, rfl⟩ := hvi
      obtain ⟨hsrc, hdst, hne, b, hb, hbdst, hbrev⟩ := harc v i a0 hvk
      cases ha
      refine ⟨hsrc, by rw [n_updData]; exact hdst, hne, ?_⟩
      rw [arcAt?_updData]
      by_cases hpair : a0.dst = v ∧ a0.rev = i
      · exact absurd hpair.1 hne
      · rw [if_neg hpair, hb]
        exact ⟨b, rfl, hbdst, hbrev⟩
  · rw [if_neg hvi] at ha
    obtain ⟨hsrc, hdst, hne, b, hb, hbdst, hbrev⟩ := harc v i a ha
    refine ⟨hsrc, by rw [n_updData]; exact hdst, hne, ?_⟩
    rw [arcAt?_updData]
    by_cases hpair : a.dst = w ∧ a.rev = k
    · rw [if_pos hpair]
      rw [hpair.1, hpair.2] at hb
      rw [hb]
      exact ⟨_, rfl, by simpa using hbdst, by simpa using hbrev⟩
    · rw [if_neg hpair]
      exact ⟨b, hb, hbdst, hbrev⟩

theorem n_pushArc (net : Net α) (v : Nat) (a : Arc α) :
    (pushArc net v a).n = net.n := rfl

theorem length_adj_pushArc (net : Net α) (v : Nat) (a : Arc α) :
    (pushArc net v a).adj.length = net.adj.length := by
  simp [pushArc]

theorem getAdj_pushArc_self {net : Net α} {v : Nat} (hv : v < net.adj.length) (a : Arc α) :
    getAdj (pushArc net v a) v = getAdj net v ++ [a] := by
  simp [pushArc, getAdj, List.getD_eq_getElem?_getD, List.getElem?_set_self', hv,
    List.getElem?_eq_getElem hv]

theorem getAdj_pushArc_ne {net : Net α} {v w : Nat} (h : w ≠ v) (a : Arc α) :
    getAdj (pushArc net v a) w = getAdj net w := by
  simp [pushArc, getAdj, List.getD_eq_getElem?_getD,
    List.getElem?_set_ne (fun hh => h hh.symm)]

theorem n_addArcG (net : Net α) (u v : Nat) (fd bd : α) :
    (addArcG net u v fd bd).n = net.n := rfl

theorem length_adj_addArcG (net : Net α) (u v : Nat) (fd bd : α) :
    (addArcG net u v fd bd).adj.length = net.adj.length := by
  simp [addArcG, length_adj_pushArc]

/-- Master lemma for `add_arc` with distinct in-range endpoints: one arc is
appended at the end of `adj[u]` pointing at the future end of `adj[v]`, one
at the end of `adj[v]` pointing back, and every other slot is untouched. -/
theorem arcAt?_addArcG (net : Net α) (u v : Nat) (fd bd : α)
    (hu : u < net.adj.length) (hv : v < net.adj.length) (huv : u ≠ v) (w k : Nat) :
    arcAt? (addArcG net u v fd bd) w k =
      if w = u ∧ k = (getAdj net u).length then
        some ⟨u, v, (getAdj net v).length, fd⟩
      else if w = v ∧ k = (getAdj net v).length then
        some ⟨v, u, (getAdj net u).length, bd⟩
      else arcAt? net w k := by
  have h1u : getAdj (pushArc net u ⟨u, v, (getAdj net v).length, fd⟩) u
      = getAdj net u ++ [⟨u, v, (getAdj net v).length, fd⟩] := getAdj_pushArc_self hu _
  have h1v : getAdj (pushArc net u ⟨u, v, (getAdj net v).length, fd⟩) v
      = getAdj net v := getAdj_pushArc_ne (fun h => huv h.symm) _
  have hlen1 : (pushArc net u ⟨u, v, (getAdj net v).length, fd⟩).adj.length
      = net.adj.length := length_adj_pushArc ..
  have haddeq : addArcG net u v fd bd =
      pushArc (pushArc net u ⟨u, v, (getAdj net v).length, fd⟩) v
        ⟨v, u, (getAdj net u).length, bd⟩ := by
    show pushArc _ v ⟨v, u, _, bd⟩ = _
    rw [h1u]
    simp
  rw [haddeq]
  by_cases hw : w = v
  · subst hw
    have h2 : getAdj (pushArc (pushArc net u ⟨u, w, (getAdj net w).length, fd⟩) w
        ⟨w, u, (getAdj net u).length, bd⟩) w
        = getAdj net w ++ [⟨w, u, (getAdj net u).length, bd⟩] := by
      rw [getAdj_pushArc_self (by rw [hlen1]; exact hv) _, h1v]
    rw [arcAt?, h2, if_neg (by rintro ⟨hh, -⟩; exact huv hh.symm)]
    by_cases hk : k = (getAdj net w).length
    · subst hk
      rw [if_pos ⟨rfl, rfl⟩]
      exact List.get?_concat_length _ _
    · rw [if_neg (by tauto)]
      rcases Nat.lt_or_ge k (getAdj net w).length with hlt | hge
      · rw [List.get?_append hlt]; rfl
      · have hge' : (getAdj net w).length < k := by omega
        rw [List.get?_eq_none.mpr (by simp; omega), arcAt?,
          List.get?_eq_none.mpr (by omega)]
  · have h2 : getAdj (pushArc (pushArc net u ⟨u, v, (getAdj net v).length, fd⟩) v
        ⟨v, u, (getAdj net u).length, bd⟩) w
        = getAdj (pushArc net u ⟨u, v, (getAdj net v).length, fd⟩) w :=
      getAdj_pushArc_ne hw _
    rw [arcAt?, h2]
    by_cases hwu : w = u
    · subst hwu
      rw [h1u]
      by_cases hk : k = (getAdj net w).length
      · subst hk
        rw [if_pos ⟨rfl, rfl⟩]
        exact List.get?_concat_length _ _
      · rw [if_neg (by rintro ⟨-, hh⟩; exact hk hh),
          if_neg (by rintro ⟨hh, -⟩; exact huv hh)]
        rcases Nat.lt_or_ge k (getAdj net w).length with hlt | hge
        · rw [List.get?_append hlt]; rfl
        · rw [List.get?_eq_none.mpr (by simp; omega), arcAt?,
            List.get?_eq_none.mpr (by omega)]
    · rw [if_neg (by rintro ⟨hh, -⟩; exact hwu hh),
        if_neg (by rintro ⟨hh, -⟩; exact hw hh),
        getAdj_pushArc_ne hwu _, arcAt?]

/-- `add_arc` with distinct in-range endpoints preserves well-formedness
and correctly links the two new arcs as a pair. -/
theorem WF_addArcG {net : Net α} (h : WF net) {u v : Nat} (huv : u ≠ v)
    (hu : u < net.n) (hv : v < net.n) (fd bd : α) :
    WF (addArcG net u v fd bd) := by
  obtain ⟨hn, harc⟩ := h
  have hu' : u < net.adj.length := by omega
  have hv' : v < net.adj.length := by omega
  have master := arcAt?_addArcG net u v fd bd hu' hv' huv
  refine ⟨by rw [length_adj_addArcG, n_addArcG]; exact hn, ?_⟩
  intro w k a ha
  rw [master] at ha
  rw [n_addArcG]
  by_cases h1 : w = u ∧ k = (getAdj net u).length
  · rw [if_pos h1] at ha
    cases ha
    refine ⟨h1.1.symm, hv, fun hh => huv (hh.trans h1.1).symm, ?_⟩
    refine ⟨⟨v, u, (getAdj net u).length, bd⟩, ?_, h1.1.symm, h1.2.symm⟩
    rw [master, if_neg (by rintro ⟨hh, -⟩; exact huv hh.symm), if_pos ⟨rfl, rfl⟩]
  · rw [if_neg h1] at ha
    by_cases h2 : w = v ∧ k = (getAdj net v).length
    · rw [if_pos h2] at ha
      cases ha
      refine ⟨h2.1.symm, hu, fun hh => huv (hh.trans h2.1), ?_⟩
      refine ⟨⟨u, v, (getAdj net v).length, fd⟩, ?_, h2.1.symm, h2.2.symm⟩
      rw [master, if_pos ⟨rfl, rfl⟩]
    · rw [if_neg h2] at ha
      obtain ⟨hsrc, hdst, hne, b, hb, hbdst, hbrev⟩ := harc w k a ha
      refine ⟨hsrc, hdst, hne, b, ?_, hbdst, hbrev⟩
      rw [master]
      have hrb : a.rev < (getAdj net a.dst).length := by
        by_contra hno
        rw [arcAt?, List.get?_eq_none.mpr (by omega)] at hb
        exact absurd hb (by simp)
      rw [if_neg (by rintro ⟨hh1, hh2⟩; rw [hh1] at hrb; omega),
        if_neg (by rintro ⟨hh1, hh2⟩; rw [hh1] at hrb; omega)]
      exact hb

theorem arcAt?_initNet (α : Type) (n v i : Nat) : arcAt? (initNet α n) v i = none := by
  rcases Nat.lt_or_ge v n with hv | hv
  · simp [arcAt?, getAdj, initNet, List.getD_eq_getElem?_getD, List.getElem?_replicate, hv]
  · rw [arcAt?, getAdj_eq_nil_of_le _ _ (by simp [initNet]; omega)]
    rfl

theorem WF_initNet (α : Type) (n : Nat) : WF (initNet α n) := by
  refine ⟨by simp [initNet], fun v i a ha => ?_⟩
  rw [arcAt?_initNet] at ha
  exact absurd ha (by simp)

theorem Nonneg_initNet (n : Nat) : Nonneg (initNet Int n) := by
  intro v i a ha
  rw [arcAt?_initNet] at ha
  exact absurd ha (by simp)

theorem Nonneg_add_arc {net : FNet} (h : Nonneg net) {u v : Nat} (huv : u ≠ v)
    (hu : u < net.adj.length) (hv : v < net.adj.length) {cap : Int} (hcap : 0 ≤ cap) :
    Nonneg (add_arc net u v cap) := by
  intro w k a ha
  rw [add_arc, arcAt?_addArcG net u v cap 0 hu hv huv] at ha
  by_cases h1 : w = u ∧ k = (getAdj net u).length
  · rw [if_pos h1] at ha; cases ha; exact hcap
  · rw [if_neg h1] at ha
    by_cases h2 : w = v ∧ k = (getAdj net v).length
    · rw [if_pos h2] at ha; cases ha; exact le_refl 0
    · rw [if_neg h2] at ha; exact h w k a ha

/-- All structural facts about a network built by a sequence of `add_arc`
calls with distinct in-range endpoints: it is well formed, has the declared
vertex count, and is non-negative when all declared capacities are. -/
theorem buildNet_facts (n : Nat) (arcs : List (Nat × Nat × Int))
    (hok : ∀ e ∈ arcs, e.1 ≠ e.2.1 ∧ e.1 < n ∧ e.2.1 < n) :
    WF (buildNet n arcs) ∧ (buildNet n arcs).n = n ∧
      (buildNet n arcs).adj.length = n ∧
      ((∀ e ∈ arcs, 0 ≤ e.2.2) → Nonneg (buildNet n arcs)) := by
  rw [buildNet]
  have main : ∀ (net : FNet), WF net → net.n = n → net.adj.length = n → Nonneg net →
      (∀ e ∈ arcs, e.1 ≠ e.2.1 ∧ e.1 < n ∧ e.2.1 < n) →
      WF (arcs.foldl (fun net e => add_arc net e.1 e.2.1 e.2.2) net) ∧
      (arcs.foldl (fun net e => add_arc net e.1 e.2.1 e.2.2) net).n = n ∧
      (arcs.foldl (fun net e => add_arc net e.1 e.2.1 e.2.2) net).adj.length = n ∧
      ((∀ e ∈ arcs, 0 ≤ e.2.2) →
        Nonneg (arcs.foldl (fun net e => add_arc net e.1 e.2.1 e.2.2) net)) := by
    clear hok
    induction arcs with
    | nil => intro net h1 h2 h3 h4 _; exact ⟨h1, h2, h3, fun _ => h4⟩
    | cons e es ih =>
        intro net h1 h2 h3 h4 hok
        obtain ⟨hne, hu, hv⟩ := hok e (List.mem_cons_self ..)
        simp only [List.foldl_cons]
        have hstep := ih (add_arc net e.1 e.2.1 e.2.2)
          (WF_addArcG h1 hne (by omega) (by omega) _ _)
          h2 (by simp only [add_arc, length_adj_addArcG]; exact h3)
        rcases Int.le_or_lt 0 e.2.2 with hc | hc
        · have h4' := Nonneg_add_arc h4 hne (by omega) (by omega) hc
          obtain ⟨c1, c2, c3, c4⟩ := hstep h4' (fun x hx => hok x (List.mem_cons_of_mem _ hx))
          exact ⟨c1, c2, c3, fun hcap =>
            c4 (fun x hx => hcap x (List.mem_cons_of_mem _ hx))⟩
        · -- a negative declared capacity: the non-negativity conclusion is vacuous,
          -- the structural conclusions still need the fold on an arbitrary state
          have main2 : ∀ (net' : FNet), WF net' → net'.n = n → net'.adj.length = n →
              (∀ x ∈ es, x.1 ≠ x.2.1 ∧ x.1 < n ∧ x.2.1 < n) →
              WF (es.foldl (fun net e => add_arc net e.1 e.2.1 e.2.2) net') ∧
              (es.foldl (fun net e => add_arc net e.1 e.2.1 e.2.2) net').n = n ∧
              (es.foldl (fun net e => add_arc net e.1 e.2.1 e.2.2) net').adj.length = n := by
            clear ih h4 hok hstep
            induction es with
            | nil => intro net' g1 g2 g3 _; exact ⟨g1, g2, g3⟩
            | cons x xs ih2 =>
                intro net' g1 g2 g3 gok
                obtain ⟨gne, gu, gv⟩ := gok x (List.mem_cons_self ..)
                simp only [List.foldl_cons]
                exact ih2 (add_arc net' x.1 x.2.1 x.2.2)
                  (WF_addArcG g1 gne (by omega) (by omega) _ _)
                  g2 (by simp only [add_arc, length_adj_addArcG]; exact g3)
                  (fun y hy => gok y (List.mem_cons_of_mem _ hy))
          obtain ⟨c1, c2, c3⟩ := main2 (add_arc net e.1 e.2.1 e.2.2)
            (WF_addArcG h1 hne (by omega) (by omega) _ _)
            h2 (by simp only [add_arc, length_adj_addArcG]; exact h3)
            (fun x hx => hok x (List.mem_cons_of_mem _ hx))
          refine ⟨c1, c2, c3, fun hcap => ?_⟩
          exact absurd (hcap e (List.mem_cons_self ..)) (by omega)
  exact main (initNet Int n) (WF_initNet Int n) rfl (by simp [initNet]) (Nonneg_initNet n) hok

theorem capAt_updData (net : FNet) (w k : Nat) (f : Int → Int) (v i : Nat) :
    capAt (updData net w k f) v i =
      if v = w ∧ i = k then
        (match arcAt? net w k with
         | none => 0
         | some a => f a.data)
      else capAt net v i := by
  rw [capAt, arcAt?_updData]
  by_cases hvi : v = w ∧ i = k
  · rw [if_pos hvi, if_pos hvi]
    rcases arcAt? net w k with _ | a <;> rfl
  · rw [if_neg hvi, if_neg hvi, capAt]

/-- Shape of `augment`: every slot keeps its arc (with identical
`src`/`dst`/`rev`), the addressed slot loses `d`, its pair gains `d`. -/
theorem arcAt?_augment {net : FNet} {u j : Nat} {e : Arc Int}
    (he : arcAt? net u j = some e) (hd : e.dst ≠ u) (d : Int) (v i : Nat) :
    arcAt? (augment net u j d) v i =
      (arcAt? net v i).map fun a =>
        { a with data := a.data - (if v = u ∧ i = j then d else 0) +
            (if v = e.dst ∧ i = e.rev then d else 0) } := by
  have hpairne : ¬(e.dst = u ∧ e.rev = j) := fun h => hd h.1
  rw [augment, he]
  by_cases h2 : v = e.dst ∧ i = e.rev
  · obtain ⟨rfl, rfl⟩ := h2
    rw [arcAt?_updData, if_pos ⟨rfl, rfl⟩, arcAt?_updData, if_neg hpairne]
    rcases hb : arcAt? net e.dst e.rev with _ | b
    · rfl
    · simp [if_neg hpairne]
  · rw [arcAt?_updData, if_neg h2, arcAt?_updData]
    by_cases h1 : v = u ∧ i = j
    · obtain ⟨rfl, rfl⟩ := h1
      rw [if_pos ⟨rfl, rfl⟩, he]
      simp [if_neg h2]
    · rw [if_neg h1]
      rcases arcAt? net v i with _ | a
      · rfl
      · simp [if_neg h1, if_neg h2]

theorem WF_augment {net : FNet} (h : WF net) (u j : Nat) (d : Int) :
    WF (augment net u j d) := by
  rw [augment]
  rcases arcAt? net u j with _ | e
  · exact h
  · exact WF_updData (WF_updData h u j _) e.dst e.rev _

theorem n_augment (net : FNet) (u j : Nat) (d : Int) :
    (augment net u j d).n = net.n := by
  rw [augment]
  rcases arcAt? net u j with _ | e
  · rfl
  · rw [n_updData, n_updData]

/-- Claim C5's core mechanism: the paired capacity transfer performed by
every augmentation step leaves every slot's `pairSum` unchanged, for any
well-formed network. -/
theorem pairSum_augment {net : FNet} (hWF : WF net) (u j : Nat) (d : Int)
    (v i : Nat) : pairSum (augment net u j d) v i = pairSum net v i := by
  rcases he : arcAt? net u j with _ | e
  · rw [augment, he]
  · obtain ⟨esrc, edlt, hd, b, hb, hbdst, hbrev⟩ := hWF.2 u j e he
    have harc := arcAt?_augment he hd d
    have hcap : ∀ v' i', capAt (augment net u j d) v' i' =
        capAt net v' i' - (if v' = u ∧ i' = j then d else 0) +
          (if v' = e.dst ∧ i' = e.rev then d else 0) := by
      intro v' i'
      rw [capAt, harc v' i', capAt]
      rcases hvi : arcAt? net v' i' with _ | a
      · have hn1 : ¬(v' = u ∧ i' = j) := by
          rintro ⟨rfl, rfl⟩; rw [hvi] at he; exact absurd he (by simp)
        have hn2 : ¬(v' = e.dst ∧ i' = e.rev) := by
          rintro ⟨rfl, rfl⟩; rw [hvi] at hb; exact absurd hb (by simp)
        rw [if_neg hn1, if_neg hn2]
        simp
      · rfl
    rw [pairSum, pairSum, harc v i]
    rcases ha : arcAt? net v i with _ | a
    · rfl
    · simp only [Option.map_some']
      obtain ⟨asrc, adlt, adne, c, hc, hcdst, hcrev⟩ := hWF.2 v i a ha
      rw [hcap a.dst a.rev]
      by_cases h1 : v = u ∧ i = j
      · have hae : a = e := by
          rw [h1.1, h1.2] at ha; rw [ha] at he; exact Option.some.inj he
        subst hae
        have h2 : ¬(v = a.dst ∧ i = a.rev) := by
          rintro ⟨hh, _⟩; exact hd (hh.symm.trans h1.1)
        have h3 : ¬(a.dst = u ∧ a.rev = j) := by
          rintro ⟨hh1, _⟩; exact hd hh1
        rw [if_pos h1, if_neg h2, if_neg h3, if_pos ⟨rfl, rfl⟩]
        ring
      · by_cases h2 : v = e.dst ∧ i = e.rev
        · have hab : a = b := by
            rw [h2.1, h2.2] at ha; rw [ha] at hb; exact Option.some.inj hb
          subst hab
          have h3 : a.dst = u ∧ a.rev = j := ⟨hbdst, hbrev⟩
          have h4 : ¬(a.dst = e.dst ∧ a.rev = e.rev) := by
            rintro ⟨hh1, _⟩
            exact hd (hh1.symm.trans h3.1)
          rw [if_neg h1, if_pos h2, if_pos h3, if_neg h4]
          ring
        · have h3 : ¬(a.dst = u ∧ a.rev = j) := by
            rintro ⟨hh1, hh2⟩
            rw [hh1, hh2] at hc
            have : c = e := by rw [hc] at he; exact Option.some.inj he
            subst this
            exact h2 ⟨hcdst.symm, hcrev.symm⟩
          have h4 : ¬(a.dst = e.dst ∧ a.rev = e.rev) := by
            rintro ⟨hh1, hh2⟩
            rw [hh1, hh2] at hc
            have : c = b := by rw [hc] at hb; exact Option.some.inj hb
            subst this
            exact h1 ⟨hbdst ▸ hcdst.symm, hbrev ▸ hcrev.symm⟩
          rw [if_neg h1, if_neg h2, if_neg h3, if_neg h4]
          ring

theorem capAt_eq {net : FNet} {v i : Nat} {a : Arc Int}
    (h : arcAt? net v i = some a) : capAt net v i = a.data := by
  rw [capAt, h]

theorem sameShape_refl (net : Net α) : sameShape net net := fun _ _ => rfl

theorem sameShape_trans {n1 n2 n3 : Net α}
    (h1 : sameShape n1 n2) (h2 : sameShape n2 n3) : sameShape n1 n3 :=
  fun v i => (h1 v i).trans (h2 v i)

theorem arcAt?_of_sameShape {net net' : Net α} (h : sameShape net net')
    {v i : Nat} {a : Arc α} (ha : arcAt? net' v i = some a) :
    ∃ a', arcAt? net v i = some a' ∧ a'.src = a.src ∧ a'.dst = a.dst ∧ a'.rev = a.rev := by
  have := h v i
  rw [shapeAt, shapeAt, ha] at this
  rcases hb : arcAt? net v i with _ | b
  · rw [hb] at this; exact absurd this (by simp)
  · rw [hb] at this
    simp only [Option.map_some', Option.some.injEq] at this
    exact ⟨b, rfl, by simp_all, by simp_all, by simp_all⟩

theorem sameShape_augment {net : FNet} (hWF : WF net) (u j : Nat) (d : Int) :
    sameShape (augment net u j d) net := by
  rcases he : arcAt? net u j with _ | e
  · rw [augment, he]; exact sameShape_refl _
  · obtain ⟨-, -, hd, -⟩ := hWF.2 u j e he
    intro v i
    rw [shapeAt, shapeAt, arcAt?_augment he hd d v i]
    rcases arcAt? net v i with _ | a <;> rfl

theorem capAt_augment {net : FNet} (hWF : WF net) {u j : Nat} {e : Arc Int}
    (he : arcAt? net u j = some e) (d : Int) (v i : Nat) :
    capAt (augment net u j d) v i =
      capAt net v i - (if v = u ∧ i = j then d else 0) +
        (if v = e.dst ∧ i = e.rev then d else 0) := by
  obtain ⟨-, -, hd, b, hb, -, -⟩ := hWF.2 u j e he
  rw [capAt, arcAt?_augment he hd d v i]
  rcases hvi : arcAt? net v i with _ | a
  · have hn1 : ¬(v = u ∧ i = j) := by
      rintro ⟨rfl, rfl⟩; rw [hvi] at he; exact absurd he (by simp)
    have hn2 : ¬(v = e.dst ∧ i = e.rev) := by
      rintro ⟨rfl, rfl⟩; rw [hvi] at hb; exact absurd hb (by simp)
    rw [if_neg hn1, if_neg hn2, capAt, hvi]
    simp
  · simp [capAt_eq hvi]

theorem Nonneg_augment {net : FNet} (hWF : WF net) (hN : Nonneg net)
    {u j : Nat} {d : Int} (hd0 : 0 ≤ d) (hcap : d ≤ capAt net u j) :
    Nonneg (augment net u j d) := by
  rcases he : arcAt? net u j with _ | e
  · rw [augment, he]; exact hN
  · intro w k a ha
    obtain ⟨-, -, hdd, -⟩ := hWF.2 u j e he
    rw [arcAt?_augment he hdd d w k] at ha
    rcases hwk : arcAt? net w k with _ | b
    · rw [hwk] at ha; exact absurd ha (by simp)
    · rw [hwk] at ha
      simp only [Option.map_some', Option.some.injEq] at ha
      have hb0 : 0 ≤ b.data := hN w k b hwk
      have : a.data = b.data - (if w = u ∧ k = j then d else 0) +
          (if w = e.dst ∧ k = e.rev then d else 0) := by rw [← ha]
      rw [this]
      by_cases h1 : w = u ∧ k = j
      · have : b.data = capAt net u j := by
          rw [capAt, ← h1.1, ← h1.2, hwk]
        split <;> omega
      · rw [if_neg h1]
        split <;> omega

theorem visAt_set_self (vis : List Bool) (v : Nat) :
    visAt (vis.set v true) v = true := by
  rcases Nat.lt_or_ge v vis.length with hv | hv
  · simp [visAt, List.get?_eq_getElem?, List.getElem?_set_self', hv,
      List.getElem?_eq_getElem hv]
  · rw [visAt, List.get?_eq_getElem?, List.getElem?_eq_none (by simpa using hv)]
    rfl

theorem visAt_set_mono {vis : List Bool} {x : Nat} (h : visAt vis x = true) (v : Nat) :
    visAt (vis.set v true) x = true := by
  by_cases hxv : x = v
  · subst hxv; exact visAt_set_self vis x
  · rw [visAt, List.get?_eq_getElem?, List.getElem?_set_ne (fun hh => hxv hh.symm)]
    rw [visAt, List.get?_eq_getElem?] at h
    exact h

theorem mem_of_arcAt? {net : Net α} {v i : Nat} {a : Arc α}
    (h : arcAt? net v i = some a) : a ∈ getAdj net v :=
  List.get?_mem h

end MaxFlowSpec

namespace MaxFlowSpec
namespace FordFulkerson

/-- The trivial postcondition instance for an unchanged state with result `0`. -/
theorem FFPost_zero (t v : Nat) (f : Int) (net : FNet) (vis : List Bool)
    (hWF : WF net) (hf : 0 < f) : FFPost t v f net vis (0, net, vis) :=
  ⟨le_refl 0, le_of_lt hf, fun _ => rfl, fun h => absurd h (by simp), hWF,
    fun _ _ => rfl, sameShape_refl net, fun _ h => h, fun _ _ _ _ => le_refl _,
    fun h => h, rfl⟩

/-- The postcondition instance for the `v = t` base case returning `f`. -/
theorem FFPost_base (t : Nat) (f : Int) (net : FNet) (vis : List Bool)
    (hWF : WF net) (hf : 0 < f) : FFPost t t f net vis (f, net, vis) :=
  ⟨le_of_lt hf, le_refl f, fun _ => rfl, fun _ => ResReach.refl t, hWF,
    fun _ _ => rfl, sameShape_refl net, fun _ h => h, fun _ _ _ _ => le_refl _,
    fun h => h, rfl⟩

/-- Postcondition of the arc loop of `FordFulkerson::Dfs`, assuming the
postcondition of the recursive call. -/
theorem FFPost_DfsLoop (t : Nat)
    (go : FNet → Nat → Int → List Bool → Int × FNet × List Bool)
    (Hgo : ∀ net w f vis, WF net → 0 < f → (visAt vis w = false ∨ w = t) →
      FFPost t w f net vis (go net w f vis)) :
    ∀ (k i v : Nat) (f : Int) (net : FNet) (vis : List Bool), WF net → 0 < f →
      visAt vis v = true →
      FFPost t v f net vis (DfsLoop go v f k i net vis) := by
  intro k
  induction k with
  | zero =>
      intro i v f net vis hWF hf hv
      exact FFPost_zero t v f net vis hWF hf
  | succ k ih =>
      intro i v f net vis hWF hf hv
      rcases harc : (getAdj net v).get? i with _ | e
      · rw [DfsLoop, harc]
        exact FFPost_zero t v f net vis hWF hf
      · rw [DfsLoop, harc]
        simp only []
        by_cases hg : ((vis.get? e.dst).getD true) = false ∧ 0 < e.data
        · rw [if_pos hg]
          rcases hgo : go net e.dst (min f e.data) vis with ⟨d, net1, vis1⟩
          have P1 : FFPost t e.dst (min f e.data) net vis (d, net1, vis1) := by
            rw [← hgo]
            exact Hgo net e.dst (min f e.data) vis hWF
              (lt_min_iff.mpr ⟨hf, hg.2⟩) (Or.inl hg.1)
          have hvne : v ≠ e.dst := by
            intro hh
            rw [show visAt vis v = (vis.get? v).getD true from rfl, hh, hg.1] at hv
            exact absurd hv (by simp)
          by_cases hd : 0 < d
          · rw [if_pos hd]
            obtain ⟨e1, he1, -, he1d, he1r⟩ :=
              arcAt?_of_sameShape P1.shape (show arcAt? net v i = some e from harc)
            have hcapv : capAt net v i ≤ capAt net1 v i := P1.mono v i hv hvne
            have hdle : d ≤ capAt net1 v i := by
              have hce : capAt net v i = e.data := capAt_eq harc
              have h1 : d ≤ min f e.data := P1.d_le
              have h2 : min f e.data ≤ e.data := min_le_right ..
              omega
            refine ⟨le_of_lt hd, le_trans P1.d_le (min_le_left ..),
              fun h => absurd h (by omega), ?_, WF_augment P1.wf v i d, ?_, ?_,
              P1.vismono, ?_, ?_, (n_augment ..).trans P1.n_eq⟩
            · intro _
              exact ResReach.cons e (mem_of_arcAt? harc) hg.2 (P1.reach hd)
            · intro v' i'
              exact (pairSum_augment P1.wf v i d v' i').trans (P1.pair v' i')
            · exact sameShape_trans (sameShape_augment P1.wf v i d) P1.shape
            · intro x y hx hxv
              have h1 := P1.mono x y hx (by
                intro hh
                rw [show visAt vis x = (vis.get? x).getD true from rfl, hh, hg.1] at hx
                exact absurd hx (by simp))
              have h2 := capAt_augment P1.wf he1 d x y
              rw [h2, if_neg (by rintro ⟨hh, -⟩; exact hxv hh)]
              split <;> omega
            · intro hN
              exact Nonneg_augment P1.wf (P1.nonneg hN) (le_of_lt hd) hdle
          · rw [if_neg hd]
            have hd0 : d = 0 := le_antisymm (by omega) P1.d_nonneg
            have hnet1 : net1 = net := P1.unchanged hd0
            subst hnet1
            have ih1 := ih (i + 1) v f net1 vis1 P1.wf hf (P1.vismono v hv)
            exact ⟨ih1.d_nonneg, ih1.d_le, ih1.unchanged, ih1.reach, ih1.wf,
              ih1.pair, ih1.shape, fun x hx => ih1.vismono x (P1.vismono x hx),
              fun x y hx hxv => ih1.mono x y (P1.vismono x hx) hxv, ih1.nonneg,
              ih1.n_eq⟩
        · rw [if_neg hg]
          exact ih (i + 1) v f net vis hWF hf hv

/-- Postcondition of `FordFulkerson::Dfs` for every fuel value: flow bounds,
no mutation on failure, residual reachability on success, and preservation
of well-formedness, shapes, pair sums, visited marks, capacities out of
visited vertices, and non-negativity. -/
theorem FFPost_Dfs :
    ∀ (fuel : Nat) (net : FNet) (v : Nat) (f : Int) (t : Nat) (vis : List Bool),
      WF net → 0 < f → (visAt vis v = false ∨ v = t) →
      FFPost t v f net vis (Dfs fuel net v f t vis) := by
  intro fuel
  induction fuel with
  | zero =>
      intro net v f t vis hWF hf _
      rw [Dfs]
      exact FFPost_zero t v f net vis hWF hf
  | succ fuel ih =>
      intro net v f t vis hWF hf hvis
      rw [Dfs]
      by_cases hvt : v = t
      · subst hvt
        rw [if_pos rfl]
        exact FFPost_base v f net vis hWF hf
      · rw [if_neg hvt]
        have hv : visAt vis v = false := hvis.resolve_right hvt
        have hloop := FFPost_DfsLoop t
          (fun net' w f' vis' => Dfs fuel net' w f' t vis')
          (fun net' w f' vis' h1 h2 h3 => ih net' w f' t vis' h1 h2 h3)
          (getAdj net v).length 0 v f net (vis.set v true) hWF hf
          (visAt_set_self vis v)
        exact ⟨hloop.d_nonneg, hloop.d_le, hloop.unchanged, hloop.reach,
          hloop.wf, hloop.pair, hloop.shape,
          fun x hx => hloop.vismono x (visAt_set_mono hx v),
          fun x y hx hxv => hloop.mono x y (visAt_set_mono hx v) hxv,
          hloop.nonneg, hloop.n_eq⟩

end FordFulkerson
end MaxFlowSpec

namespace MaxFlowSpec
namespace Dinic

/-- The trivial postcondition instance for an unchanged state with result `0`. -/
theorem DinicPost_zero (t v : Nat) (f : Int) (level : List Int) (net : FNet)
    (iter : List Nat) (hWF : WF net) (hf : 0 < f) :
    DinicPost t v f level net (0, net, iter) :=
  ⟨le_refl 0, le_of_lt hf, fun _ => rfl, fun h => absurd h (by simp), hWF,
    fun _ _ => rfl, sameShape_refl net, fun _ _ _ => le_refl _, fun h => h, rfl⟩

/-- The postcondition instance for the `v = t` base case returning `f`. -/
theorem DinicPost_base (t : Nat) (f : Int) (level : List Int) (net : FNet)
    (iter : List Nat) (hWF : WF net) (hf : 0 < f) :
    DinicPost t t f level net (f, net, iter) :=
  ⟨le_of_lt hf, le_refl f, fun _ => rfl, fun _ => ResReach.refl t, hWF,
    fun _ _ => rfl, sameShape_refl net, fun _ _ _ => le_refl _, fun h => h, rfl⟩

/-- Postcondition of the resume-pointer loop of `Dinic::AugmentingPath`,
assuming the postcondition of the recursive call.  `Hlev` says all stored
levels are at least `-1`, which holds for every level array the
breadth-first levelling produces. -/
theorem DinicPost_AugLoop (t : Nat) (level : List Int)
    (go : FNet → Nat → Int → List Nat → Int × FNet × List Nat)
    (Hgo : ∀ net w f iter, WF net → 0 < f →
      DinicPost t w f level net (go net w f iter)) :
    ∀ (k : Nat) (v : Nat) (f : Int) (net : FNet) (iter : List Nat),
      WF net → 0 < f →
      DinicPost t v f level net (AugLoop go level v f k net iter) := by
  intro k
  induction k with
  | zero =>
      intro v f net iter hWF hf
      exact DinicPost_zero t v f level net iter hWF hf
  | succ k ih =>
      intro v f net iter hWF hf
      rw [AugLoop]
      rcases harc : (getAdj net v).get? ((iter.get? v).getD 0) with _ | e
      · exact DinicPost_zero t v f level net iter hWF hf
      · simp only []
        by_cases hg : 0 < e.data ∧ (level.get? v).getD 0 < (level.get? e.dst).getD (-1)
        · rw [if_pos hg]
          rcases hgo : go net e.dst (min f e.data) iter with ⟨d, net1, iter1⟩
          have P1 : DinicPost t e.dst (min f e.data) level net (d, net1, iter1) := by
            rw [← hgo]
            exact Hgo net e.dst (min f e.data) iter hWF (lt_min_iff.mpr ⟨hf, hg.1⟩)
          have hle0 : (level.get? v).getD (-1) ≤ (level.get? v).getD 0 := by
            rcases level.get? v with _ | val <;> simp
          have hlevv : (level.get? v).getD (-1) < (level.get? e.dst).getD (-1) :=
            lt_of_le_of_lt hle0 hg.2
          by_cases hd : 0 < d
          · rw [if_pos hd]
            obtain ⟨e1, he1, -, he1d, he1r⟩ :=
              arcAt?_of_sameShape P1.shape (show arcAt? net v ((iter.get? v).getD 0) = some e from harc)
            have hcapv : capAt net v ((iter.get? v).getD 0) ≤ capAt net1 v ((iter.get? v).getD 0) :=
              P1.mono v _ hlevv
            have hdle : d ≤ capAt net1 v ((iter.get? v).getD 0) := by
              have hce : capAt net v ((iter.get? v).getD 0) = e.data := capAt_eq harc
              have h1 : d ≤ min f e.data := P1.d_le
              have h2 : min f e.data ≤ e.data := min_le_right ..
              omega
            refine ⟨le_of_lt hd, le_trans P1.d_le (min_le_left ..),
              fun h => absurd h (by omega), ?_, WF_augment P1.wf v _ d, ?_, ?_, ?_, ?_,
              (n_augment ..).trans P1.n_eq⟩
            · intro _
              exact ResReach.cons e (mem_of_arcAt? harc) hg.1 (P1.reach hd)
            · intro v' i'
              exact (pairSum_augment P1.wf v _ d v' i').trans (P1.pair v' i')
            · exact sameShape_trans (sameShape_augment P1.wf v _ d) P1.shape
            · intro x y hx
              have h1 := P1.mono x y (lt_trans hx hlevv)
              have h2 := capAt_augment P1.wf he1 d x y
              rw [h2, if_neg (by rintro ⟨hh, -⟩; rw [hh] at hx; exact absurd hx (by omega))]
              split <;> omega
            · intro hN
              exact Nonneg_augment P1.wf (P1.nonneg hN) (le_of_lt hd) hdle
          · rw [if_neg hd]
            have hd0 : d = 0 := le_antisymm (by omega) P1.d_nonneg
            have hnet1 : net1 = net := P1.unchanged hd0
            subst hnet1
            exact ih v f net1 (iter1.set v ((iter1.get? v).getD 0 + 1)) P1.wf hf
        · rw [if_neg hg]
          exact ih v f net (iter.set v ((iter.get? v).getD 0 + 1)) hWF hf

/-- Postcondition of `Dinic::AugmentingPath` for every fuel value. -/
theorem DinicPost_Aug :
    ∀ (fuel : Nat) (net : FNet) (v : Nat) (f : Int) (t : Nat) (level : List Int)
      (iter : List Nat), WF net → 0 < f →
      DinicPost t v f level net (AugmentingPath fuel net v f t level iter) := by
  intro fuel
  induction fuel with
  | zero =>
      intro net v f t level iter hWF hf
      rw [AugmentingPath]
      exact DinicPost_zero t v f level net iter hWF hf
  | succ fuel ih =>
      intro net v f t level iter hWF hf
      rw [AugmentingPath]
      by_cases hvt : v = t
      · subst hvt
        rw [if_pos rfl]
        exact DinicPost_base v f level net iter hWF hf
      · rw [if_neg hvt]
        exact DinicPost_AugLoop t level
          (fun net' w f' iter' => AugmentingPath fuel net' w f' t level iter')
          (fun net' w f' iter' h1 h2 => ih net' w f' t level iter' h1 h2)
          _ v f net iter hWF hf

end Dinic
end MaxFlowSpec

namespace MaxFlowSpec
namespace CapacityScaling

/-- The fueled logarithm agrees with `Nat.log2` whenever the fuel covers
the argument; in particular `log2w = Nat.log2`. -/
theorem log2f_eq (fuel : Nat) : ∀ n, n ≤ fuel → log2f fuel n = Nat.log2 n := by
  induction fuel with
  | zero =>
      intro n hn
      have h0 : n = 0 := by omega
      subst h0
      rw [log2f, Nat.log2]
      simp
  | succ fuel ih =>
      intro n hn
      rw [log2f, Nat.log2]
      by_cases h2 : 2 ≤ n
      · rw [if_pos h2, if_pos h2, ih (n / 2) (by omega)]
      · rw [if_neg h2, if_neg h2]

theorem wsub_eq {a d : Nat} (hd : d ≤ a) (ha : a < W64) : wsub a d = a - d := by
  have hdW : d % W64 = d := Nat.mod_eq_of_lt (by omega)
  rw [wsub, hdW]
  have h1 : a + (W64 - d) = W64 + (a - d) := by
    have : 0 < W64 := by rw [W64]; omega
    omega
  rw [h1, Nat.add_mod_left, Nat.mod_eq_of_lt (by omega)]

theorem wadd_eq {a d : Nat} (h : a + d < W64) : (a + d) % W64 = a + d :=
  Nat.mod_eq_of_lt h

theorem auxAt_eq {net : CSNet} {v i : Nat} {a : Arc CSD}
    (h : arcAt? net v i = some a) : auxAt net v i = a.data.cap_aux := by
  rw [auxAt, h]

/-- Shape of `csAugment`: every slot keeps its arc, the addressed slot's
`cap_aux` becomes its unsigned difference with `d`, its pair's `cap_aux`
its unsigned sum with `d`. -/
theorem arcAt?_csAugment {net : CSNet} {u j : Nat} {e : Arc CSD}
    (he : arcAt? net u j = some e) (hd : e.dst ≠ u) (d : Nat) (v i : Nat) :
    arcAt? (csAugment net u j d) v i =
      (arcAt? net v i).map fun a =>
        { a with data := { a.data with cap_aux :=
            (if v = u ∧ i = j then wsub a.data.cap_aux d
             else if v = e.dst ∧ i = e.rev then (a.data.cap_aux + d) % W64
             else a.data.cap_aux) } } := by
  have hpairne : ¬(e.dst = u ∧ e.rev = j) := fun h => hd h.1
  rw [csAugment, he]
  by_cases h2 : v = e.dst ∧ i = e.rev
  · obtain ⟨rfl, rfl⟩ := h2
    rw [arcAt?_updData, if_pos ⟨rfl, rfl⟩, arcAt?_updData, if_neg hpairne]
    rcases hb : arcAt? net e.dst e.rev with _ | b
    · rfl
    · simp [if_neg hpairne]
  · rw [arcAt?_updData, if_neg h2, arcAt?_updData]
    by_cases h1 : v = u ∧ i = j
    · obtain ⟨rfl, rfl⟩ := h1
      rw [if_pos ⟨rfl, rfl⟩, he]
      simp [if_neg h2]
    · rw [if_neg h1]
      rcases arcAt? net v i with _ | a
      · rfl
      · simp [if_neg h1, if_neg h2]

theorem sameShape_csAugment {net : CSNet} (hWF : WF net) (u j : Nat) (d : Nat) :
    sameShape (csAugment net u j d) net := by
  rcases he : arcAt? net u j with _ | e
  · rw [csAugment, he]; exact sameShape_refl _
  · obtain ⟨-, -, hd, -⟩ := hWF.2 u j e he
    intro v i
    rw [shapeAt, shapeAt, arcAt?_csAugment he hd d v i]
    rcases arcAt? net v i with _ | a <;> rfl

theorem WF_csAugment {net : CSNet} (h : WF net) (u j : Nat) (d : Nat) :
    WF (csAugment net u j d) := by
  rw [csAugment]
  rcases arcAt? net u j with _ | e
  · exact h
  · exact WF_updData (WF_updData h u j _) e.dst e.rev _

theorem n_csAugment (net : CSNet) (u j : Nat) (d : Nat) :
    (csAugment net u j d).n = net.n := by
  rw [csAugment]
  rcases arcAt? net u j with _ | e
  · rfl
  · rw [n_updData, n_updData]

theorem auxAt_csAugment {net : CSNet} (hWF : WF net) {u j : Nat} {e : Arc CSD}
    (he : arcAt? net u j = some e) (d : Nat) (v i : Nat) :
    auxAt (csAugment net u j d) v i =
      if v = u ∧ i = j then wsub (auxAt net u j) d
      else if v = e.dst ∧ i = e.rev then (auxAt net v i + d) % W64
      else auxAt net v i := by
  obtain ⟨-, -, hd, b, hb, -, -⟩ := hWF.2 u j e he
  rw [auxAt, arcAt?_csAugment he hd d v i]
  rcases hvi : arcAt? net v i with _ | a
  · have hn1 : ¬(v = u ∧ i = j) := by
      rintro ⟨rfl, rfl⟩; rw [hvi] at he; exact absurd he (by simp)
    have hn2 : ¬(v = e.dst ∧ i = e.rev) := by
      rintro ⟨rfl, rfl⟩; rw [hvi] at hb; exact absurd hb (by simp)
    rw [if_neg hn1, if_neg hn2, auxAt, hvi]
    rfl
  · simp only [Option.map_some']
    by_cases h1 : v = u ∧ i = j
    · rw [if_pos h1, if_pos h1]
      have haux1 : auxAt net u j = a.data.cap_aux := by
        rw [← h1.1, ← h1.2]; exact auxAt_eq hvi
      rw [haux1]
    · rw [if_neg h1, if_neg h1, auxAt_eq hvi]

/-- A payload update that keeps `cap` and `is_original` keeps every
`capFlagAt`. -/
theorem capFlagAt_updData (net : CSNet) (w k : Nat) (f : CSD → CSD)
    (hf : ∀ d, (f d).cap = d.cap ∧ (f d).is_original = d.is_original)
    (v i : Nat) : capFlagAt (updData net w k f) v i = capFlagAt net v i := by
  rw [capFlagAt, capFlagAt, arcAt?_updData]
  by_cases h : v = w ∧ i = k
  · rw [if_pos h, h.1, h.2]
    rcases arcAt? net w k with _ | a
    · rfl
    · simp [(hf a.data).1, (hf a.data).2]
  · rw [if_neg h]

/-- The capacity transfer of the scaling `Dfs` writes only `cap_aux`. -/
theorem capFlagAt_csAugment (net : CSNet) (u j : Nat) (d : Nat) (v i : Nat) :
    capFlagAt (csAugment net u j d) v i = capFlagAt net v i := by
  rcases he : arcAt? net u j with _ | e
  · rw [csAugment, he]
  · rw [csAugment, he]
    simp only []
    exact (capFlagAt_updData
        (updData net u j fun x => { x with cap_aux := wsub x.cap_aux d })
        e.dst e.rev (fun x => { x with cap_aux := (x.cap_aux + d) % W64 })
        (fun x => ⟨rfl, rfl⟩) v i).trans
      (capFlagAt_updData net u j
        (fun x => { x with cap_aux := wsub x.cap_aux d })
        (fun x => ⟨rfl, rfl⟩) v i)

/-- Unfolding of `auxPairSum` through `auxAt`. -/
theorem auxPairSum_def (net : CSNet) (v i : Nat) :
    auxPairSum net v i =
      (match arcAt? net v i with
       | none => 0
       | some a => a.data.cap_aux + auxAt net a.dst a.rev) := rfl

/-- The capacity transfer of the scaling `Dfs` preserves every `cap_aux`
pair sum exactly, provided the transferred amount is bounded by the
decremented arc's `cap_aux` and the pair sums fit in 64 bits (so no
unsigned wraparound occurs). -/
theorem auxPairSum_csAugment {net : CSNet} (hWF : WF net) {u j : Nat}
    {e : Arc CSD} (he : arcAt? net u j = some e) {d : Nat}
    (hdle : d ≤ e.data.cap_aux)
    (Hsum : ∀ v i, auxPairSum net v i < W64)
    (v i : Nat) : auxPairSum (csAugment net u j d) v i = auxPairSum net v i := by
  obtain ⟨esrc, edlt, hd, b, hb, hbdst, hbrev⟩ := hWF.2 u j e he
  have heaux : auxAt net u j = e.data.cap_aux := auxAt_eq he
  have hbaux : auxAt net e.dst e.rev = b.data.cap_aux := auxAt_eq hb
  have hsumuj : auxPairSum net u j = e.data.cap_aux + b.data.cap_aux := by
    rw [auxPairSum_def, he]
    simp only []
    rw [hbaux]
  have heW : e.data.cap_aux + b.data.cap_aux < W64 := by
    have := Hsum u j; omega
  have haux : ∀ v' i', auxAt (csAugment net u j d) v' i' =
      if v' = u ∧ i' = j then auxAt net u j - d
      else if v' = e.dst ∧ i' = e.rev then auxAt net v' i' + d
      else auxAt net v' i' := by
    intro v' i'
    rw [auxAt_csAugment hWF he d v' i']
    by_cases h1 : v' = u ∧ i' = j
    · rw [if_pos h1, if_pos h1, wsub_eq (by rw [heaux]; exact hdle) (by omega)]
    · rw [if_neg h1, if_neg h1]
      by_cases h2 : v' = e.dst ∧ i' = e.rev
      · rw [if_pos h2, if_pos h2, wadd_eq]
        have : auxAt net v' i' = b.data.cap_aux := by
          rw [h2.1, h2.2]; exact auxAt_eq hb
        omega
      · rw [if_neg h2, if_neg h2]
  have hXa := arcAt?_csAugment he hd d v i
  rcases ha : arcAt? net v i with _ | a
  · rw [ha] at hXa
    simp only [Option.map_none'] at hXa
    rw [auxPairSum_def, auxPairSum_def, hXa, ha]
  · rw [ha] at hXa
    simp only [Option.map_some'] at hXa
    rw [auxPairSum_def, auxPairSum_def, hXa, ha]
    simp only []
    rw [haux a.dst a.rev]
    by_cases h1 : v = u ∧ i = j
    · have hae : a = e := by
        rw [h1.1, h1.2] at ha; rw [ha] at he; exact Option.some.inj he
      have h3 : ¬(a.dst = u ∧ a.rev = j) := by
        rw [hae]; exact fun hh => hd hh.1
      have h4 : a.dst = e.dst ∧ a.rev = e.rev := by rw [hae]; exact ⟨rfl, rfl⟩
      have hEa : a.data.cap_aux = e.data.cap_aux := by rw [hae]
      have h5 : auxAt net a.dst a.rev = b.data.cap_aux := by
        rw [h4.1, h4.2]; exact hbaux
      rw [if_pos h1, if_neg h3, if_pos h4, h5,
        wsub_eq (show d ≤ a.data.cap_aux by omega) (by omega)]
      show a.data.cap_aux - d + (b.data.cap_aux + d) = a.data.cap_aux + b.data.cap_aux
      omega
    · by_cases h2 : v = e.dst ∧ i = e.rev
      · have hab : a = b := by
          rw [h2.1, h2.2] at ha; rw [ha] at hb; exact Option.some.inj hb
        have h3 : a.dst = u ∧ a.rev = j := by rw [hab]; exact ⟨hbdst, hbrev⟩
        have hBa : a.data.cap_aux = b.data.cap_aux := by rw [hab]
        have h5 : auxAt net a.dst a.rev = e.data.cap_aux := by
          rw [h3.1, h3.2]; exact heaux
        rw [if_neg h1, if_pos h2, if_pos h3, h5, heaux, wadd_eq (by omega)]
        show a.data.cap_aux + d + (e.data.cap_aux - d) = a.data.cap_aux + e.data.cap_aux
        omega
      · obtain ⟨asrc, adlt, adne, c, hc, hcdst, hcrev⟩ := hWF.2 v i a ha
        have h3 : ¬(a.dst = u ∧ a.rev = j) := by
          rintro ⟨hh1, hh2⟩
          rw [hh1, hh2] at hc
          have : c = e := by rw [hc] at he; exact Option.some.inj he
          subst this
          exact h2 ⟨hcdst.symm, hcrev.symm⟩
        have h4 : ¬(a.dst = e.dst ∧ a.rev = e.rev) := by
          rintro ⟨hh1, hh2⟩
          rw [hh1, hh2] at hc
          have : c = b := by rw [hc] at hb; exact Option.some.inj hb
          subst this
          exact h1 ⟨hbdst ▸ hcdst.symm, hbrev ▸ hcrev.symm⟩
        rw [if_neg h1, if_neg h2, if_neg h3, if_neg h4]

end CapacityScaling
end MaxFlowSpec

namespace MaxFlowSpec
namespace CapacityScaling

/-- The trivial postcondition instance for an unchanged state with result `0`. -/
theorem CSPost_zero (t v f : Nat) (net : CSNet) (vis : List Bool) (hWF : WF net) :
    CSPost t v f net vis (0, net, vis) :=
  ⟨Nat.zero_le f, fun _ => rfl, hWF, fun _ _ => rfl, sameShape_refl net,
    fun _ h => h, fun _ _ _ _ => le_refl _, rfl, fun _ _ => rfl⟩

/-- The postcondition instance for the `v = t` base case returning `f`. -/
theorem CSPost_base (t f : Nat) (net : CSNet) (vis : List Bool) (hWF : WF net) :
    CSPost t t f net vis (f, net, vis) :=
  ⟨le_refl f, fun _ => rfl, hWF, fun _ _ => rfl, sameShape_refl net,
    fun _ h => h, fun _ _ _ _ => le_refl _, rfl, fun _ _ => rfl⟩

/-- Postcondition of the arc loop of `CapacityScalingAlgorithm::Dfs`,
assuming the postcondition of the recursive call and that all `cap_aux`
pair sums fit in 64 bits. -/
theorem CSPost_DfsLoop (t : Nat)
    (go : CSNet → Nat → Nat → List Bool → Nat × CSNet × List Bool)
    (Hgo : ∀ net w f vis, WF net → (∀ v' i', auxPairSum net v' i' < W64) →
      (visAt vis w = false ∨ w = t) → CSPost t w f net vis (go net w f vis)) :
    ∀ (k i v f : Nat) (net : CSNet) (vis : List Bool), WF net →
      (∀ v' i', auxPairSum net v' i' < W64) → visAt vis v = true →
      CSPost t v f net vis (DfsLoop go v f k i net vis) := by
  intro k
  induction k with
  | zero =>
      intro i v f net vis hWF _ _
      exact CSPost_zero t v f net vis hWF
  | succ k ih =>
      intro i v f net vis hWF Hsum hv
      rw [DfsLoop]
      rcases harc : (getAdj net v).get? i with _ | e
      · exact CSPost_zero t v f net vis hWF
      · simp only []
        by_cases hg : ((vis.get? e.dst).getD true) = false ∧ 0 < e.data.cap_aux
        · rw [if_pos hg]
          rcases hgo : go net e.dst (min f e.data.cap_aux) vis with ⟨d, net1, vis1⟩
          have P1 : CSPost t e.dst (min f e.data.cap_aux) net vis (d, net1, vis1) := by
            rw [← hgo]
            exact Hgo net e.dst (min f e.data.cap_aux) vis hWF Hsum (Or.inl hg.1)
          have hvne : v ≠ e.dst := by
            intro hh
            rw [show visAt vis v = (vis.get? v).getD true from rfl, hh, hg.1] at hv
            exact absurd hv (by simp)
          have Hsum1 : ∀ v' i', auxPairSum net1 v' i' < W64 := by
            intro v' i'
            rw [P1.pair v' i']
            exact Hsum v' i'
          by_cases hd : 0 < d
          · rw [if_pos hd]
            obtain ⟨e1, he1, -, he1d, he1r⟩ :=
              arcAt?_of_sameShape P1.shape (show arcAt? net v i = some e from harc)
            have hauxv : auxAt net v i ≤ auxAt net1 v i := P1.mono v i hv hvne
            have hdle : d ≤ e1.data.cap_aux := by
              have hce : auxAt net v i = e.data.cap_aux := auxAt_eq harc
              have hc1 : auxAt net1 v i = e1.data.cap_aux := auxAt_eq he1
              have h1 : d ≤ min f e.data.cap_aux := P1.d_le
              have h2 : min f e.data.cap_aux ≤ e.data.cap_aux := min_le_right ..
              omega
            refine ⟨le_trans P1.d_le (min_le_left ..),
              fun h => absurd h (by omega), WF_csAugment P1.wf v i d, ?_, ?_,
              P1.vismono, ?_, (n_csAugment ..).trans P1.n_eq,
              fun v' i' => (capFlagAt_csAugment net1 v i d v' i').trans (P1.caps v' i')⟩
            · intro v' i'
              exact (auxPairSum_csAugment P1.wf he1 hdle Hsum1 v' i').trans (P1.pair v' i')
            · exact sameShape_trans (sameShape_csAugment P1.wf v i d) P1.shape
            · intro x y hx hxv
              have h1 : auxAt net x y ≤ auxAt net1 x y := P1.mono x y hx (by
                intro hh
                rw [show visAt vis x = (vis.get? x).getD true from rfl, hh, hg.1] at hx
                exact absurd hx (by simp))
              rw [auxAt_csAugment P1.wf he1 d x y,
                if_neg (by rintro ⟨hh, -⟩; exact hxv hh)]
              by_cases h2 : x = e1.dst ∧ y = e1.rev
              · rw [if_pos h2]
                have hsum1 : auxPairSum net1 v i < W64 := Hsum1 v i
                have hdef : auxPairSum net1 v i = e1.data.cap_aux + auxAt net1 e1.dst e1.rev := by
                  rw [auxPairSum_def, he1]
                have hbound : auxAt net1 x y + d < W64 := by
                  rw [h2.1, h2.2]
                  omega
                rw [wadd_eq hbound]
                omega
              · rw [if_neg h2]
                exact h1
          · rw [if_neg hd]
            have hd0 : d = 0 := by omega
            have hnet1 : net1 = net := P1.unchanged hd0
            subst hnet1
            have ih1 := ih (i + 1) v f net1 vis1 P1.wf Hsum (P1.vismono v hv)
            exact ⟨ih1.d_le, ih1.unchanged, ih1.wf, ih1.pair, ih1.shape,
              fun x hx => ih1.vismono x (P1.vismono x hx),
              fun x y hx hxv => ih1.mono x y (P1.vismono x hx) hxv, ih1.n_eq,
              ih1.caps⟩
        · rw [if_neg hg]
          exact ih (i + 1) v f net vis hWF Hsum hv

/-- Postcondition of `CapacityScalingAlgorithm::Dfs` for every fuel value. -/
theorem CSPost_Dfs :
    ∀ (fuel : Nat) (net : CSNet) (v f t : Nat) (vis : List Bool),
      WF net → (∀ v' i', auxPairSum net v' i' < W64) →
      (visAt vis v = false ∨ v = t) →
      CSPost t v f net vis (Dfs fuel net v f t vis) := by
  intro fuel
  induction fuel with
  | zero =>
      intro net v f t vis hWF _ _
      rw [Dfs]
      exact CSPost_zero t v f net vis hWF
  | succ fuel ih =>
      intro net v f t vis hWF Hsum hvis
      rw [Dfs]
      by_cases hvt : v = t
      · subst hvt
        rw [if_pos rfl]
        exact CSPost_base v f net vis hWF
      · rw [if_neg hvt]
        have hv : visAt vis v = false := hvis.resolve_right hvt
        have hloop := CSPost_DfsLoop t
          (fun net' w f' vis' => Dfs fuel net' w f' t vis')
          (fun net' w f' vis' h1 h2 h3 => ih net' w f' t vis' h1 h2 h3)
          (getAdj net v).length 0 v f net (vis.set v true) hWF Hsum
          (visAt_set_self vis v)
        exact ⟨hloop.d_le, hloop.unchanged, hloop.wf, hloop.pair, hloop.shape,
          fun x hx => hloop.vismono x (visAt_set_mono hx v),
          fun x y hx hxv => hloop.mono x y (visAt_set_mono hx v) hxv, hloop.n_eq,
          hloop.caps⟩

/-- The `Dfs` saturation loop inside one scaling iteration preserves
well-formedness, shapes and all `cap_aux` pair sums. -/
theorem SatLoop_inv (s t inf : Nat) :
    ∀ (fuel : Nat) (net : CSNet) (flow : Nat) (fl : Nat) (net' : CSNet),
      WF net → (∀ v' i', auxPairSum net v' i' < W64) → (s < net.n ∨ s = t) →
      SatLoop s t inf fuel net flow = some (fl, net') →
      WF net' ∧ sameShape net' net ∧
        (∀ v' i', auxPairSum net' v' i' = auxPairSum net v' i') ∧ net'.n = net.n ∧
        sameCaps net' net := by
  intro fuel
  induction fuel with
  | zero =>
      intro net flow fl net' _ _ _ h
      exact absurd h (by rw [SatLoop]; simp)
  | succ fuel ih =>
      intro net flow fl net' hWF Hsum hs h
      rw [SatLoop] at h
      rcases hdfs : Dfs (net.n + 1) net s inf t (List.replicate net.n false) with ⟨f, net1, vis1⟩
      rw [hdfs] at h
      have P1 : CSPost t s inf net (List.replicate net.n false) (f, net1, vis1) := by
        rw [← hdfs]
        refine CSPost_Dfs (net.n + 1) net s inf t (List.replicate net.n false) hWF Hsum ?_
        rcases hs with hs | hs
        · left
          rw [visAt, List.get?_eq_getElem?, List.getElem?_replicate, if_pos hs]
          rfl
        · right; exact hs
      simp only [] at h
      by_cases hf : f = 0
      · rw [if_pos hf] at h
        have hh : net1 = net := P1.unchanged hf
        subst hh
        cases h
        exact ⟨P1.wf, P1.shape, P1.pair, rfl, P1.caps⟩
      · rw [if_neg hf] at h
        have hn1 : net1.n = net.n := P1.n_eq
        obtain ⟨c1, c2, c3, c4, c5⟩ := ih net1 ((flow + f) % W64) fl net' P1.wf
          (fun v' i' => by rw [P1.pair v' i']; exact Hsum v' i')
          (by rw [hn1]; exact hs) h
        exact ⟨c1, sameShape_trans c2 P1.shape,
          fun v' i' => (c3 v' i').trans (P1.pair v' i'), by rw [c4, hn1],
          fun v' i' => (c5 v' i').trans (P1.caps v' i')⟩

end CapacityScaling
end MaxFlowSpec

namespace MaxFlowSpec

/-- Extending residual reachability by one positive arc at the far end. -/
theorem ResReach.snoc {net : FNet} {s v : Nat} (h : ResReach net s v)
    {e : Arc Int} (he : e ∈ getAdj net v) (hpos : 0 < e.data) :
    ResReach net s e.dst := by
  induction h with
  | refl w => exact ResReach.cons e he hpos (ResReach.refl e.dst)
  | cons e' he' hpos' _ ih => exact ResReach.cons e' he' hpos' (ih he)

end MaxFlowSpec

namespace MaxFlowSpec
namespace EdmondsKarp

/-- The breadth-first scan of one adjacency list preserves the invariant
that every assigned parent pointer witnesses residual reachability from
`s`, and only enqueues reachable vertices. -/
theorem BfsScan_inv (net : FNet) (s t v : Nat) (hv : ResReach net s v) :
    ∀ (es : List (Arc Int)) (prev : List Int) (adds : List Nat),
      (∀ e ∈ es, e ∈ getAdj net v) →
      (∀ w pv, prev.get? w = some pv → pv ≠ -1 → ResReach net s w) →
      (∀ w ∈ adds, ResReach net s w) →
      (∀ w pv, (BfsScan t v es prev adds).1.get? w = some pv → pv ≠ -1 →
        ResReach net s w) ∧
      (∀ w ∈ (BfsScan t v es prev adds).2.1, ResReach net s w) ∧
      (BfsScan t v es prev adds).1.length = prev.length := by
  intro es
  induction es with
  | nil =>
      intro prev adds _ hprev hadds
      exact ⟨hprev, hadds, rfl⟩
  | cons e es ih =>
      intro prev adds hmem hprev hadds
      rw [BfsScan]
      by_cases h1 : e.data ≤ 0
      · rw [if_pos h1]
        exact ih prev adds (fun x hx => hmem x (List.mem_cons_of_mem _ hx)) hprev hadds
      · rw [if_neg h1]
        have hreach : ResReach net s e.dst :=
          hv.snoc (hmem e (List.mem_cons_self ..)) (by omega)
        by_cases h2 : e.dst = t
        · rw [if_pos h2]
          refine ⟨?_, hadds, by simp⟩
          intro w pv hw hpv
          rcases eq_or_ne w t with rfl | hwt
          · exact h2 ▸ hreach
          · exact hprev w pv (by
              rw [List.get?_eq_getElem?] at hw ⊢
              rw [List.getElem?_set_ne (fun hh => hwt hh.symm)] at hw
              exact hw) hpv
        · rw [if_neg h2]
          by_cases h3 : (prev.get? e.dst).getD 0 = -1
          · rw [if_pos h3]
            have hprev2 : ∀ w pv, (prev.set e.dst (Int.ofNat v)).get? w = some pv →
                pv ≠ -1 → ResReach net s w := by
              intro w pv hw hpv
              rcases eq_or_ne w e.dst with rfl | hwd
              · exact hreach
              · exact hprev w pv (by
                  rw [List.get?_eq_getElem?] at hw ⊢
                  rw [List.getElem?_set_ne (fun hh => hwd hh.symm)] at hw
                  exact hw) hpv
            have hadds2 : ∀ w ∈ adds ++ [e.dst], ResReach net s w := by
              intro w hw
              rcases List.mem_append.mp hw with hw | hw
              · exact hadds w hw
              · rw [List.mem_singleton.mp hw]
                exact hreach
            obtain ⟨d1, d2, d3⟩ := ih (prev.set e.dst (Int.ofNat v)) (adds ++ [e.dst])
              (fun x hx => hmem x (List.mem_cons_of_mem _ hx)) hprev2 hadds2
            exact ⟨d1, d2, by rw [d3]; simp⟩
          · rw [if_neg h3]
            exact ih prev adds (fun x hx => hmem x (List.mem_cons_of_mem _ hx)) hprev hadds

/-- The breadth-first-search loop of `EdmondsKarp::Bfs` only assigns parent
pointers to vertices residually reachable from `s`, for every fuel value. -/
theorem BfsLoop_inv (net : FNet) (s t : Nat) :
    ∀ (fuel : Nat) (prev : List Int) (queue : List Nat),
      (∀ w pv, prev.get? w = some pv → pv ≠ -1 → ResReach net s w) →
      (∀ w ∈ queue, ResReach net s w) →
      ∀ w pv, (BfsLoop net t fuel prev queue).get? w = some pv → pv ≠ -1 →
        ResReach net s w := by
  intro fuel
  induction fuel with
  | zero => intro prev queue hprev _; exact hprev
  | succ fuel ih =>
      intro prev queue hprev hqueue
      match queue with
      | [] => exact hprev
      | v :: rest =>
          rw [BfsLoop]
          rcases hscan : BfsScan t v (getAdj net v) prev [] with ⟨prev1, adds, reached⟩
          simp only []
          obtain ⟨c1, c2, -⟩ := BfsScan_inv net s t v
            (hqueue v (List.mem_cons_self ..)) (getAdj net v) prev []
            (fun _ hx => hx) hprev (by simp)
          rw [hscan] at c1 c2
          by_cases hr : reached = true
          · rw [if_pos hr]
            exact c1
          · rw [if_neg hr]
            refine ih prev1 (rest ++ adds) c1 ?_
            intro w hw
            rcases List.mem_append.mp hw with hw | hw
            · exact hqueue w (List.mem_cons_of_mem _ hw)
            · exact c2 w hw

/-- `BfsScan` preserves the length of the parent array. -/
theorem BfsScan_length (t v : Nat) :
    ∀ (es : List (Arc Int)) (prev : List Int) (adds : List Nat),
      (BfsScan t v es prev adds).1.length = prev.length := by
  intro es
  induction es with
  | nil => intro prev adds; rfl
  | cons e es ih =>
      intro prev adds
      rw [BfsScan]
      by_cases h1 : e.data ≤ 0
      · rw [if_pos h1]; exact ih prev adds
      · rw [if_neg h1]
        by_cases h2 : e.dst = t
        · rw [if_pos h2]; simp
        · rw [if_neg h2]
          by_cases h3 : (prev.get? e.dst).getD 0 = -1
          · rw [if_pos h3]
            rw [ih]
            simp
          · rw [if_neg h3]; exact ih prev adds

/-- `BfsLoop` preserves the length of the parent array. -/
theorem BfsLoop_length (net : FNet) (t : Nat) :
    ∀ (fuel : Nat) (prev : List Int) (queue : List Nat),
      (BfsLoop net t fuel prev queue).length = prev.length := by
  intro fuel
  induction fuel with
  | zero => intro prev queue; rfl
  | succ fuel ih =>
      intro prev queue
      match queue with
      | [] => rfl
      | v :: rest =>
          rw [BfsLoop]
          rcases hscan : BfsScan t v (getAdj net v) prev [] with ⟨prev1, adds, reached⟩
          simp only []
          have hlen : prev1.length = prev.length := by
            have hh := BfsScan_length t v (getAdj net v) prev []
            rw [hscan] at hh
            exact hh
          by_cases hr : reached = true
          · rw [if_pos hr]; exact hlen
          · rw [if_neg hr]
            rw [ih prev1 (rest ++ adds)]
            exact hlen

end EdmondsKarp
end MaxFlowSpec

namespace MaxFlowSpec
namespace Dinic

/-- The level scan of one adjacency list only assigns levels to vertices
residually reachable from `s`, and only enqueues reachable vertices. -/
theorem LevelScan_inv (net : FNet) (s v : Nat) (hv : ResReach net s v) :
    ∀ (es : List (Arc Int)) (level : List Int) (adds : List Nat),
      (∀ e ∈ es, e ∈ getAdj net v) →
      (∀ w val, level.get? w = some val → val ≠ -1 → ResReach net s w) →
      (∀ w ∈ adds, ResReach net s w) →
      (∀ w val, (LevelScan v es level adds).1.get? w = some val → val ≠ -1 →
        ResReach net s w) ∧
      (∀ w ∈ (LevelScan v es level adds).2, ResReach net s w) := by
  intro es
  induction es with
  | nil =>
      intro level adds _ hlev hadds
      exact ⟨hlev, hadds⟩
  | cons e es ih =>
      intro level adds hmem hlev hadds
      rw [LevelScan]
      by_cases h1 : 0 < e.data ∧ (level.get? e.dst).getD 0 = -1
      · rw [if_pos h1]
        have hreach : ResReach net s e.dst :=
          hv.snoc (hmem e (List.mem_cons_self ..)) h1.1
        refine ih _ _ (fun x hx => hmem x (List.mem_cons_of_mem _ hx)) ?_ ?_
        · intro w val hw hval
          rcases eq_or_ne w e.dst with rfl | hwd
          · exact hreach
          · exact hlev w val (by
              rw [List.get?_eq_getElem?] at hw ⊢
              rw [List.getElem?_set_ne (fun hh => hwd hh.symm)] at hw
              exact hw) hval
        · intro w hw
          rcases List.mem_append.mp hw with hw | hw
          · exact hadds w hw
          · rw [List.mem_singleton.mp hw]
            exact hreach
      · rw [if_neg h1]
        exact ih level adds (fun x hx => hmem x (List.mem_cons_of_mem _ hx)) hlev hadds

/-- The levelling loop of `Dinic::LevelGraph` only assigns levels to
vertices residually reachable from `s`, for every fuel value. -/
theorem LevelLoop_inv (net : FNet) (s : Nat) :
    ∀ (fuel : Nat) (level : List Int) (queue : List Nat),
      (∀ w val, level.get? w = some val → val ≠ -1 → ResReach net s w) →
      (∀ w ∈ queue, ResReach net s w) →
      ∀ w val, (LevelLoop net fuel level queue).get? w = some val → val ≠ -1 →
        ResReach net s w := by
  intro fuel
  induction fuel with
  | zero => intro level queue hlev _; exact hlev
  | succ fuel ih =>
      intro level queue hlev hqueue
      match queue with
      | [] => exact hlev
      | v :: rest =>
          rw [LevelLoop]
          rcases hscan : LevelScan v (getAdj net v) level [] with ⟨level1, adds⟩
          simp only []
          obtain ⟨c1, c2⟩ := LevelScan_inv net s v
            (hqueue v (List.mem_cons_self ..)) (getAdj net v) level []
            (fun _ hx => hx) hlev (by simp)
          rw [hscan] at c1 c2
          refine ih level1 (rest ++ adds) c1 ?_
          intro w hw
          rcases List.mem_append.mp hw with hw | hw
          · exact hqueue w (List.mem_cons_of_mem _ hw)
          · exact c2 w hw

/-- `LevelGraph` assigns a level other than `-1` only to vertices
residually reachable from the source. -/
theorem LevelGraph_inv (net : FNet) (s : Nat) :
    ∀ w val, (LevelGraph net s).get? w = some val → val ≠ -1 →
      ResReach net s w := by
  intro w val hw hval
  refine LevelLoop_inv net s (net.n + 2)
    ((List.replicate net.n (-1 : Int)).set s 0) [s] ?_ ?_ w val hw hval
  · intro w' pv hw' hpv
    rcases eq_or_ne w' s with rfl | hws
    · exact ResReach.refl w'
    · exfalso
      rw [List.get?_eq_getElem?, List.getElem?_set_ne (fun hh => hws hh.symm)] at hw'
      rcases Nat.lt_or_ge w' net.n with hlt | hge
      · rw [List.getElem?_replicate, if_pos hlt] at hw'
        cases hw'
        exact hpv rfl
      · rw [List.getElem?_eq_none (by simpa using hge)] at hw'
        exact absurd hw' (by simp)
  · intro w' hw'
    rw [List.mem_singleton.mp hw']
    exact ResReach.refl s

end Dinic
end MaxFlowSpec

namespace MaxFlowSpec
namespace Dinic

/-- `LevelScan` preserves the length of the level array. -/
theorem LevelScan_length (v : Nat) :
    ∀ (es : List (Arc Int)) (level : List Int) (adds : List Nat),
      (LevelScan v es level adds).1.length = level.length := by
  intro es
  induction es with
  | nil => intro level adds; rfl
  | cons e es ih =>
      intro level adds
      rw [LevelScan]
      by_cases h1 : 0 < e.data ∧ (level.get? e.dst).getD 0 = -1
      · rw [if_pos h1, ih]
        simp
      · rw [if_neg h1]
        exact ih level adds

/-- `LevelLoop` preserves the length of the level array. -/
theorem LevelLoop_length (net : FNet) :
    ∀ (fuel : Nat) (level : List Int) (queue : List Nat),
      (LevelLoop net fuel level queue).length = level.length := by
  intro fuel
  induction fuel with
  | zero => intro level queue; rfl
  | succ fuel ih =>
      intro level queue
      match queue with
      | [] => rfl
      | v :: rest =>
          rw [LevelLoop]
          rcases hscan : LevelScan v (getAdj net v) level [] with ⟨level1, adds⟩
          simp only []
          rw [ih level1 (rest ++ adds)]
          have hh := LevelScan_length v (getAdj net v) level []
          rw [hscan] at hh
          exact hh

/-- The level array produced by `Dinic::LevelGraph` has one entry per
vertex. -/
theorem LevelGraph_length (net : FNet) (s : Nat) :
    (LevelGraph net s).length = net.n := by
  rw [LevelGraph, LevelLoop_length]
  simp

/-- When no residual augmenting path from `s` to `t` exists, the sink stays
unlevelled and `Dinic::MaximumFlow` returns `0` without touching the
network. -/
theorem MaximumFlow_exhausted_dinic (net : FNet) (s t : Nat) (inf : Int) (fuel : Nat)
    (ht : t < net.n) (hno : ¬ ResReach net s t) :
    MaximumFlow (fuel + 1) net s t inf = some (0, net) := by
  have hlen : (LevelGraph net s).length = net.n := LevelGraph_length net s
  rcases hget : (LevelGraph net s).get? t with _ | val
  · have := List.get?_eq_none.mp hget
    omega
  · have hval : val = -1 := by
      by_contra hne
      exact hno (LevelGraph_inv net s t val hget hne)
    rw [MaximumFlow, MFLoop]
    rw [if_pos (by rw [hget, hval]; rfl)]

end Dinic
end MaxFlowSpec

namespace MaxFlowSpec
namespace EdmondsKarp

/-- When no residual augmenting path exists, the breadth-first search
leaves `prev[t] = -1` and `EdmondsKarp::Bfs` returns `0` with the network
untouched. -/
theorem Bfs_exhausted (net : FNet) (s t : Nat)
    (ht : t < net.n) (hno : ¬ ResReach net s t) (inf : Int) :
    Bfs net s t inf = some (0, net) := by
  rw [Bfs]
  have hlen : (BfsLoop net t (net.n + 2)
      ((List.replicate net.n (-1 : Int)).set s 0) [s]).length = net.n := by
    rw [BfsLoop_length]
    simp
  have hinv : ∀ w pv, (BfsLoop net t (net.n + 2)
      ((List.replicate net.n (-1 : Int)).set s 0) [s]).get? w = some pv →
      pv ≠ -1 → ResReach net s w := by
    refine BfsLoop_inv net s t (net.n + 2) _ [s] ?_ ?_
    · intro w pv hw hpv
      rcases eq_or_ne w s with rfl | hws
      · exact ResReach.refl w
      · exfalso
        rw [List.get?_eq_getElem?, List.getElem?_set_ne (fun hh => hws hh.symm)] at hw
        rcases Nat.lt_or_ge w net.n with hlt | hge
        · rw [List.getElem?_replicate, if_pos hlt] at hw
          cases hw
          exact hpv rfl
        · rw [List.getElem?_eq_none (by simpa using hge)] at hw
          exact absurd hw (by simp)
    · intro w hw
      rw [List.mem_singleton.mp hw]
      exact ResReach.refl s
  rcases hget : (BfsLoop net t (net.n + 2)
      ((List.replicate net.n (-1 : Int)).set s 0) [s]).get? t with _ | pv
  · have := List.get?_eq_none.mp hget
    omega
  · have hpv : pv = -1 := by
      by_contra hne
      exact hno (hinv t pv hget hne)
    subst hpv
    simp [hget]

/-- When no residual augmenting path exists, `EdmondsKarp::MaximumFlow`
returns `0` without touching the network. -/
theorem MaximumFlow_exhausted_ek (net : FNet) (s t : Nat) (inf : Int) (fuel : Nat)
    (ht : t < net.n) (hno : ¬ ResReach net s t) :
    MaximumFlow (fuel + 1) net s t inf = some (0, net) := by
  rw [MaximumFlow, MFLoop, Bfs_exhausted net s t ht hno inf]
  simp only []
  rw [if_pos (le_refl (0 : Int))]

end EdmondsKarp
end MaxFlowSpec

namespace MaxFlowSpec
namespace FordFulkerson

/-- When no residual augmenting path exists, the depth-first search finds
nothing and `FordFulkerson::MaximumFlow` returns `0` without touching the
network. -/
theorem MaximumFlow_exhausted_ff (net : FNet) (s t : Nat) (inf : Int) (fuel : Nat)
    (hWF : WF net) (hinf : 0 < inf) (hs : s < net.n) (hno : ¬ ResReach net s t) :
    MaximumFlow (fuel + 1) net s t inf = some (0, net) := by
  have hvis : visAt (List.replicate net.n false) s = false := by
    rw [visAt, List.get?_eq_getElem?, List.getElem?_replicate, if_pos hs]
    rfl
  rcases hD : Dfs (net.n + 1) net s inf t (List.replicate net.n false) with ⟨f, net1, vis1⟩
  have P := FFPost_Dfs (net.n + 1) net s inf t (List.replicate net.n false)
    hWF hinf (Or.inl hvis)
  rw [hD] at P
  have hf0 : f = 0 := by
    rcases lt_or_eq_of_le P.d_nonneg with hlt | heq
    · exact absurd (P.reach hlt) hno
    · exact heq.symm
  rw [MaximumFlow, MFLoop, hD]
  simp only []
  rw [if_pos (le_of_eq hf0)]
  rw [show net1 = net from P.unchanged hf0]

end FordFulkerson
end MaxFlowSpec

namespace MaxFlowSpec
namespace FordFulkerson

/-- The augmentation loop of `FordFulkerson::MaximumFlow` preserves
well-formedness, non-negativity of residual capacities, and the vertex
count. -/
theorem MFLoop_pres_ff (s t : Nat) (inf : Int) (hinf : 0 < inf) :
    ∀ (fuel : Nat) (net : FNet) (flow fl : Int) (net' : FNet),
      WF net → Nonneg net → (s < net.n ∨ s = t) →
      MFLoop s t inf fuel net flow = some (fl, net') →
      WF net' ∧ Nonneg net' ∧ net'.n = net.n := by
  intro fuel
  induction fuel with
  | zero =>
      intro net flow fl net' _ _ _ h
      exact absurd h (by rw [MFLoop]; simp)
  | succ fuel ih =>
      intro net flow fl net' hWF hN hs h
      rw [MFLoop] at h
      rcases hD : Dfs (net.n + 1) net s inf t (List.replicate net.n false)
        with ⟨f, net1, vis1⟩
      rw [hD] at h
      simp only [] at h
      have hvis : visAt (List.replicate net.n false) s = false ∨ s = t := by
        rcases hs with hs | hs
        · exact Or.inl (by
            rw [visAt, List.get?_eq_getElem?, List.getElem?_replicate, if_pos hs]
            rfl)
        · exact Or.inr hs
      have P := FFPost_Dfs (net.n + 1) net s inf t (List.replicate net.n false)
        hWF hinf hvis
      rw [hD] at P
      by_cases hf : f ≤ 0
      · rw [if_pos hf] at h
        cases h
        exact ⟨P.wf, P.nonneg hN, P.n_eq⟩
      · rw [if_neg hf] at h
        obtain ⟨w1, w2, w3⟩ := ih net1 (flow + f) fl net' P.wf (P.nonneg hN)
          (by rw [P.n_eq]; exact hs) h
        exact ⟨w1, w2, w3.trans P.n_eq⟩

/-- `FordFulkerson::MaximumFlow` preserves well-formedness and the
non-negativity of every residual capacity. -/
theorem MaximumFlow_pres_ff (fuel : Nat) (net : FNet) (s t : Nat) (inf : Int)
    (fl : Int) (net' : FNet) (hWF : WF net) (hN : Nonneg net) (hinf : 0 < inf)
    (hs : s < net.n ∨ s = t)
    (h : MaximumFlow fuel net s t inf = some (fl, net')) :
    WF net' ∧ Nonneg net' ∧ net'.n = net.n :=
  MFLoop_pres_ff s t inf hinf fuel net 0 fl net' hWF hN hs h

end FordFulkerson
end MaxFlowSpec

namespace MaxFlowSpec
namespace Dinic

/-- The blocking-flow loop of `Dinic::MaximumFlow` preserves
well-formedness, non-negativity and the vertex count. -/
theorem PhaseLoop_pres (s t : Nat) (inf : Int) (level : List Int)
    (hinf : 0 < inf) :
    ∀ (fuel : Nat) (net : FNet) (iter : List Nat) (flow fl : Int) (net' : FNet),
      WF net → Nonneg net →
      PhaseLoop s t inf level fuel net iter flow = some (fl, net') →
      WF net' ∧ Nonneg net' ∧ net'.n = net.n := by
  intro fuel
  induction fuel with
  | zero =>
      intro net iter flow fl net' _ _ h
      exact absurd h (by rw [PhaseLoop]; simp)
  | succ fuel ih =>
      intro net iter flow fl net' hWF hN h
      rw [PhaseLoop] at h
      rcases hA : AugmentingPath (net.n + 1) net s inf t level iter
        with ⟨bf, net1, iter1⟩
      rw [hA] at h
      simp only [] at h
      have P := DinicPost_Aug (net.n + 1) net s inf t level iter hWF hinf
      rw [hA] at P
      by_cases hbf : bf ≤ 0
      · rw [if_pos hbf] at h
        cases h
        exact ⟨P.wf, P.nonneg hN, P.n_eq⟩
      · rw [if_neg hbf] at h
        obtain ⟨w1, w2, w3⟩ := ih net1 iter1 (flow + bf) fl net' P.wf (P.nonneg hN) h
        exact ⟨w1, w2, w3.trans P.n_eq⟩

/-- The phase loop of `Dinic::MaximumFlow` preserves well-formedness,
non-negativity and the vertex count. -/
theorem MFLoop_pres_dinic (s t : Nat) (inf : Int) (hinf : 0 < inf) :
    ∀ (fuel : Nat) (net : FNet) (flow fl : Int) (net' : FNet),
      WF net → Nonneg net →
      MFLoop s t inf fuel net flow = some (fl, net') →
      WF net' ∧ Nonneg net' ∧ net'.n = net.n := by
  intro fuel
  induction fuel with
  | zero =>
      intro net flow fl net' _ _ h
      exact absurd h (by rw [MFLoop]; simp)
  | succ fuel ih =>
      intro net flow fl net' hWF hN h
      rw [MFLoop] at h
      by_cases hlev : ((LevelGraph net s).get? t).getD 0 = -1
      · rw [if_pos hlev] at h
        cases h
        exact ⟨hWF, hN, rfl⟩
      · rw [if_neg hlev] at h
        rcases hP : PhaseLoop s t inf (LevelGraph net s) (fuel + 1) net
            (List.replicate net.n 0) flow with _ | ⟨flow1, net1⟩
        · rw [hP] at h
          exact absurd h (by simp)
        · rw [hP] at h
          simp only [] at h
          obtain ⟨w1, w2, w3⟩ := PhaseLoop_pres s t inf (LevelGraph net s) hinf
            (fuel + 1) net (List.replicate net.n 0) flow flow1 net1 hWF hN hP
          obtain ⟨u1, u2, u3⟩ := ih net1 flow1 fl net' w1 w2 h
          exact ⟨u1, u2, u3.trans w3⟩

/-- `Dinic::MaximumFlow` preserves well-formedness and the non-negativity
of every residual capacity. -/
theorem MaximumFlow_pres_dinic (fuel : Nat) (net : FNet) (s t : Nat) (inf : Int)
    (fl : Int) (net' : FNet) (hWF : WF net) (hN : Nonneg net) (hinf : 0 < inf)
    (h : MaximumFlow fuel net s t inf = some (fl, net')) :
    WF net' ∧ Nonneg net' ∧ net'.n = net.n :=
  MFLoop_pres_dinic s t inf hinf fuel net 0 fl net' hWF hN h

end Dinic
end MaxFlowSpec

namespace MaxFlowSpec
namespace CapacityScaling

/-- `CapacityScalingAlgorithm::add_arc` through the generic
`arcAt?_addArcG` characterisation: the new forward slot is the original
arc, the new backward slot its non-original partner with the same `cap`,
all other slots unchanged. -/
theorem arcAt?_cs_add_arc {net : CSNet} {u v : Nat} (hu : u < net.adj.length)
    (hv : v < net.adj.length) (huv : u ≠ v) (c : Nat) (w k : Nat) :
    arcAt? (add_arc net u v c) w k =
      (if w = u ∧ k = (getAdj net u).length then
        some ⟨u, v, (getAdj net v).length, ⟨c, 0, true⟩⟩
      else if w = v ∧ k = (getAdj net v).length then
        some ⟨v, u, (getAdj net u).length, ⟨c, 0, false⟩⟩
      else arcAt? net w k) := by
  rw [add_arc]
  exact arcAt?_addArcG net u v _ _ hu hv huv w k

/-- `add_arc` preserves capacity-scaling well-formedness (distinct
in-range endpoints, capacity below `2 ^ 64`). -/
theorem CSWF_add_arc {net : CSNet} (h : CSWF net) {u v : Nat} (huv : u ≠ v)
    (hu : u < net.n) (hv : v < net.n) {c : Nat} (hc : c < W64) :
    CSWF (add_arc net u v c) := by
  have hu' : u < net.adj.length := by rw [h.1.1]; exact hu
  have hv' : v < net.adj.length := by rw [h.1.1]; exact hv
  refine ⟨WF_addArcG h.1 huv hu hv _ _, ?_⟩
  intro w k a ha
  rw [arcAt?_cs_add_arc hu' hv' huv c w k] at ha
  by_cases h1 : w = u ∧ k = (getAdj net u).length
  · rw [if_pos h1] at ha
    cases ha
    refine ⟨hc, ⟨v, u, (getAdj net u).length, ⟨c, 0, false⟩⟩, ?_, rfl, rfl⟩
    rw [arcAt?_cs_add_arc hu' hv' huv c v (getAdj net v).length,
      if_neg (by rintro ⟨hh, -⟩; exact huv hh.symm), if_pos ⟨rfl, rfl⟩]
  · rw [if_neg h1] at ha
    by_cases h2 : w = v ∧ k = (getAdj net v).length
    · rw [if_pos h2] at ha
      cases ha
      refine ⟨hc, ⟨u, v, (getAdj net v).length, ⟨c, 0, true⟩⟩, ?_, rfl, rfl⟩
      rw [arcAt?_cs_add_arc hu' hv' huv c u (getAdj net u).length, if_pos ⟨rfl, rfl⟩]
    · rw [if_neg h2] at ha
      obtain ⟨hcap, b, hb, hbc, hbf⟩ := h.2 w k a ha
      refine ⟨hcap, b, ?_, hbc, hbf⟩
      have hrevlt : a.rev < (getAdj net a.dst).length := by
        rcases List.get?_eq_some.mp hb with ⟨hlt, -⟩
        exact hlt
      rw [arcAt?_cs_add_arc hu' hv' huv c a.dst a.rev,
        if_neg (by rintro ⟨rfl, hk⟩; omega), if_neg (by rintro ⟨rfl, hk⟩; omega)]
      exact hb

/-- `add_arc` keeps every `cap_aux` at `0` (both new arcs start at `0`). -/
theorem auxAt_add_arc_zero {net : CSNet} (hz : ∀ v i, auxAt net v i = 0)
    {u v : Nat} (hu : u < net.adj.length) (hv : v < net.adj.length)
    (huv : u ≠ v) (c : Nat) : ∀ w k, auxAt (add_arc net u v c) w k = 0 := by
  intro w k
  rw [auxAt, arcAt?_cs_add_arc hu hv huv c w k]
  by_cases h1 : w = u ∧ k = (getAdj net u).length
  · rw [if_pos h1]
  · rw [if_neg h1]
    by_cases h2 : w = v ∧ k = (getAdj net v).length
    · rw [if_pos h2]
    · rw [if_neg h2]
      exact hz w k

/-- Every `cap` stored by a sequence of `add_arc` calls is one of the
submitted capacities. -/
theorem cap_mem_add_arc {net : CSNet} {L : List Nat}
    (hmem : ∀ v i a, arcAt? net v i = some a → a.data.cap ∈ L)
    {u v : Nat} (hu : u < net.adj.length) (hv : v < net.adj.length)
    (huv : u ≠ v) {c : Nat} (hcL : c ∈ L) :
    ∀ w k a, arcAt? (add_arc net u v c) w k = some a → a.data.cap ∈ L := by
  intro w k a ha
  rw [arcAt?_cs_add_arc hu hv huv c w k] at ha
  by_cases h1 : w = u ∧ k = (getAdj net u).length
  · rw [if_pos h1] at ha
    cases ha
    exact hcL
  · rw [if_neg h1] at ha
    by_cases h2 : w = v ∧ k = (getAdj net v).length
    · rw [if_pos h2] at ha
      cases ha
      exact hcL
    · rw [if_neg h2] at ha
      exact hmem w k a ha

/-- The fresh scaling network is well-formed with all-zero `cap_aux`. -/
theorem CSWF_initNet (n : Nat) : CSWF (initNet CSD n) := by
  refine ⟨WF_initNet CSD n, ?_⟩
  intro v i a ha
  rw [arcAt?_initNet] at ha
  exact absurd ha (by simp)

/-- Construction facts for `buildCS`: the built network is
capacity-scaling well-formed, has `n` vertices and adjacency lists, starts
with every `cap_aux` equal to `0`, and stores only the submitted
capacities. -/
theorem buildCS_facts (n : Nat) (arcs : List (Nat × Nat × Nat))
    (hok : ∀ e ∈ arcs, e.1 ≠ e.2.1 ∧ e.1 < n ∧ e.2.1 < n ∧ e.2.2 < W64) :
    CSWF (buildCS n arcs) ∧ (buildCS n arcs).n = n ∧
      (buildCS n arcs).adj.length = n ∧
      (∀ v i, auxAt (buildCS n arcs) v i = 0) ∧
      (∀ v i a, arcAt? (buildCS n arcs) v i = some a →
        a.data.cap ∈ arcs.map (fun e => e.2.2)) := by
  rw [buildCS]
  have main : ∀ (es : List (Nat × Nat × Nat)) (net : CSNet), CSWF net →
      net.n = n → net.adj.length = n → (∀ v i, auxAt net v i = 0) →
      (∀ v i a, arcAt? net v i = some a →
        a.data.cap ∈ arcs.map (fun e => e.2.2)) →
      (∀ e ∈ es, e.1 ≠ e.2.1 ∧ e.1 < n ∧ e.2.1 < n ∧ e.2.2 < W64 ∧
        e.2.2 ∈ arcs.map (fun e => e.2.2)) →
      CSWF (es.foldl (fun net e => add_arc net e.1 e.2.1 e.2.2) net) ∧
      (es.foldl (fun net e => add_arc net e.1 e.2.1 e.2.2) net).n = n ∧
      (es.foldl (fun net e => add_arc net e.1 e.2.1 e.2.2) net).adj.length = n ∧
      (∀ v i, auxAt (es.foldl (fun net e => add_arc net e.1 e.2.1 e.2.2) net) v i = 0) ∧
      (∀ v i a,
        arcAt? (es.foldl (fun net e => add_arc net e.1 e.2.1 e.2.2) net) v i = some a →
        a.data.cap ∈ arcs.map (fun e => e.2.2)) := by
    intro es
    induction es with
    | nil => intro net h1 h2 h3 h4 h5 _; exact ⟨h1, h2, h3, h4, h5⟩
    | cons e es ih =>
        intro net h1 h2 h3 h4 h5 hok2
        obtain ⟨hne, hu, hv, hcW, hcL⟩ := hok2 e (List.mem_cons_self ..)
        have hu' : e.1 < net.adj.length := by omega
        have hv' : e.2.1 < net.adj.length := by omega
        simp only [List.foldl_cons]
        exact ih (add_arc net e.1 e.2.1 e.2.2)
          (CSWF_add_arc h1 hne (by omega) (by omega) hcW)
          (by rw [add_arc, n_addArcG]; exact h2)
          (by rw [add_arc, length_adj_addArcG]; exact h3)
          (auxAt_add_arc_zero h4 hu' hv' hne e.2.2)
          (cap_mem_add_arc h5 hu' hv' hne hcL)
          (fun x hx => hok2 x (List.mem_cons_of_mem _ hx))
  refine main arcs (initNet CSD n) (CSWF_initNet n) rfl (by simp [initNet]) ?_ ?_ ?_
  · intro v i
    rw [auxAt, arcAt?_initNet]
  · intro v i a ha
    rw [arcAt?_initNet] at ha
    exact absurd ha (by simp)
  · intro e he
    obtain ⟨g1, g2, g3, g4⟩ := hok e he
    exact ⟨g1, g2, g3, g4, List.mem_map_of_mem _ he⟩

end CapacityScaling
end MaxFlowSpec

namespace MaxFlowSpec

/-- A payload update never changes the arc structure. -/
theorem sameShape_updData (net : Net α) (w j : Nat) (f : α → α) :
    sameShape (updData net w j f) net := by
  intro v i
  rw [shapeAt, shapeAt, arcAt?_updData]
  by_cases hvi : v = w ∧ i = j
  · rw [if_pos hvi, hvi.1, hvi.2]
    rcases arcAt? net w j with _ | a <;> rfl
  · rw [if_neg hvi]

end MaxFlowSpec

namespace MaxFlowSpec
namespace CapacityScaling

/-- `auxAt` through a payload update. -/
theorem auxAt_updData (net : CSNet) (w j : Nat) (f : CSD → CSD) (v i : Nat) :
    auxAt (updData net w j f) v i =
      (if v = w ∧ i = j then
        (match arcAt? net w j with
         | none => 0
         | some a => (f a.data).cap_aux)
      else auxAt net v i) := by
  rw [auxAt, arcAt?_updData]
  by_cases hvi : v = w ∧ i = j
  · rw [if_pos hvi, if_pos hvi]
    rcases arcAt? net w j with _ | a <;> rfl
  · rw [if_neg hvi, if_neg hvi, auxAt]

/-- A network with the shape and the immutable payload data of a
capacity-scaling well-formed network is itself capacity-scaling
well-formed. -/
theorem CSWF_transfer {net0 m : CSNet} (h0 : CSWF net0) (hWF : WF m)
    (hsh : sameShape m net0) (hcp : sameCaps m net0) : CSWF m := by
  refine ⟨hWF, ?_⟩
  intro v i a ha
  obtain ⟨a0, ha0, -, hdst, hrev⟩ :=
    arcAt?_of_sameShape (fun v i => (hsh v i).symm) ha
  have hcf : (a.data.cap, a.data.is_original) = (a0.data.cap, a0.data.is_original) := by
    have hh := hcp v i
    rw [capFlagAt, capFlagAt, ha, ha0] at hh
    exact Option.some.inj hh
  obtain ⟨hc0, b0, hb0, hbc, hbf⟩ := h0.2 v i a0 ha0
  obtain ⟨b, hb, -, -, -⟩ := arcAt?_of_sameShape hsh hb0
  have hcfb : (b.data.cap, b.data.is_original) = (b0.data.cap, b0.data.is_original) := by
    have hh := hcp a0.dst a0.rev
    rw [capFlagAt, capFlagAt, hb, hb0] at hh
    exact Option.some.inj hh
  injection hcf with hcf1 hcf2
  injection hcfb with hcfb1 hcfb2
  refine ⟨by rw [hcf1]; exact hc0, b, ?_, ?_, ?_⟩
  · rw [← hdst, ← hrev]
    exact hb
  · rw [hcfb1, hbc, hcf1]
  · rw [hcfb2, hbf, hcf2]

/-- Every occupied position of the adjacency table is listed in `slots`. -/
theorem mem_slots {net : CSNet} (hlen : net.adj.length = net.n) {v i : Nat}
    {a : Arc CSD} (ha : arcAt? net v i = some a) : (v, i) ∈ slots net := by
  have hv : v < net.n := by
    have := lt_length_of_arcAt?_isSome ha
    omega
  have hi : i < (getAdj net v).length := by
    rcases List.get?_eq_some.mp ha with ⟨hlt, -⟩
    exact hlt
  rw [slots]
  refine List.mem_flatMap.mpr ⟨v, List.mem_range.mpr hv, ?_⟩
  exact List.mem_map.mpr ⟨i, List.mem_range.mpr hi, rfl⟩

/-- The iteration order of `DoubleFlowAndMakeAuxiliaryNetwork` visits every
position exactly once. -/
theorem slots_nodup (net : CSNet) : (slots net).Nodup := by
  rw [slots, List.nodup_flatMap]
  constructor
  · intro v _
    refine List.Nodup.map ?_ (List.nodup_range _)
    intro a b h
    injection h
  · refine (List.pairwise_lt_range _).imp ?_
    intro a b hab p hpa hpb
    obtain ⟨ia, -, hia⟩ := List.mem_map.mp hpa
    obtain ⟨ib, -, hib⟩ := List.mem_map.mp hpb
    rw [← hia] at hib
    injection hib with h1 h2
    omega

end CapacityScaling
end MaxFlowSpec

namespace MaxFlowSpec
namespace CapacityScaling

/-- `dfStep` at an empty position is a no-op. -/
theorem dfStep_none {m : CSNet} {u j : Nat} (hm : arcAt? m u j = none)
    (K k : Nat) : dfStep K k m (u, j) = m := by
  rw [dfStep]
  simp only []
  rw [hm]

/-- `dfStep` at an original arc is a no-op. -/
theorem dfStep_orig {m : CSNet} {u j : Nat} {em : Arc CSD}
    (hm : arcAt? m u j = some em) (hflag : em.data.is_original = true)
    (K k : Nat) : dfStep K k m (u, j) = m := by
  rw [dfStep]
  simp only []
  rw [hm]
  simp only []
  rw [if_pos hflag]

/-- `dfStep` at a non-original arc: structure, immutable data and vertex
count are preserved; the arc's `cap_aux` is doubled (mod `2 ^ 64`) and its
pair's `cap_aux` becomes the unsigned difference between the restricted
capacity `cap >>> (K - k)` and the doubled value; all other `cap_aux`
values are untouched. -/
theorem dfStep_facts {m : CSNet} (hWFm : WF m) {u j : Nat} {em : Arc CSD}
    (hm : arcAt? m u j = some em) (hflag : ¬ em.data.is_original = true)
    (K k : Nat) :
    WF (dfStep K k m (u, j)) ∧ sameShape (dfStep K k m (u, j)) m ∧
    (∀ v i, capFlagAt (dfStep K k m (u, j)) v i = capFlagAt m v i) ∧
    (dfStep K k m (u, j)).n = m.n ∧
    (∀ v i, auxAt (dfStep K k m (u, j)) v i =
      (if v = em.dst ∧ i = em.rev then
        wsub (em.data.cap >>> (K - k)) ((2 * em.data.cap_aux) % W64)
      else if v = u ∧ i = j then (2 * em.data.cap_aux) % W64
      else auxAt m v i)) := by
  obtain ⟨-, -, hdne_m, bm, hbm, -, -⟩ := hWFm.2 u j em hm
  have hstep : dfStep K k m (u, j) =
      updData
        (updData m u j (fun d => { d with cap_aux := (2 * em.data.cap_aux) % W64 }))
        em.dst em.rev
        (fun d => { d with cap_aux := wsub (em.data.cap >>> (K - k)) ((2 * em.data.cap_aux) % W64) }) := by
    rw [dfStep]
    simp only []
    rw [hm]
    simp only []
    rw [if_neg hflag]
  rw [hstep]
  have harc1 : arcAt?
      (updData m u j (fun d => { d with cap_aux := (2 * em.data.cap_aux) % W64 }))
      em.dst em.rev = some bm := by
    rw [arcAt?_updData, if_neg (by rintro ⟨h, -⟩; exact hdne_m h)]
    exact hbm
  refine ⟨WF_updData (WF_updData hWFm u j _) em.dst em.rev _,
    sameShape_trans (sameShape_updData _ em.dst em.rev _) (sameShape_updData m u j _),
    fun v i => (capFlagAt_updData
        (updData m u j (fun d => { d with cap_aux := (2 * em.data.cap_aux) % W64 }))
        em.dst em.rev
        (fun d => { d with cap_aux := wsub (em.data.cap >>> (K - k)) ((2 * em.data.cap_aux) % W64) })
        (fun x => ⟨rfl, rfl⟩) v i).trans
      (capFlagAt_updData m u j
        (fun d => { d with cap_aux := (2 * em.data.cap_aux) % W64 })
        (fun x => ⟨rfl, rfl⟩) v i),
    by rw [n_updData, n_updData], ?_⟩
  intro v i
  rw [auxAt_updData]
  by_cases h2 : v = em.dst ∧ i = em.rev
  · rw [if_pos h2, if_pos h2, harc1]
  · rw [if_neg h2, if_neg h2, auxAt_updData]
    by_cases h1 : v = u ∧ i = j
    · rw [if_pos h1, if_pos h1, hm]
    · rw [if_neg h1, if_neg h1]

/-- The slot loop of `DoubleFlowAndMakeAuxiliaryNetwork`: folding `dfStep`
over a duplicate-free list of positions doubles the `cap_aux` of each
processed non-original arc and rewrites its pair to the difference with the
`k`-th restricted capacity, leaving every other `cap_aux` and all immutable
data untouched.  `P` lists the already-processed positions. -/
theorem dfStep_fold (net0 : CSNet) (K k : Nat) (hWF0 : CSWF net0)
    (HB : ∀ v i a, arcAt? net0 v i = some a → a.data.is_original = false →
      2 * a.data.cap_aux ≤ a.data.cap >>> (K - k) ∧ a.data.cap >>> (K - k) < W64) :
    ∀ (R P : List (Nat × Nat)) (m : CSNet),
      (P ++ R).Nodup →
      WF m → sameShape m net0 → sameCaps m net0 → m.n = net0.n →
      (∀ v i a, arcAt? net0 v i = some a → a.data.is_original = false →
        (((v, i) ∈ P → auxAt m v i = 2 * auxAt net0 v i ∧
            auxAt m a.dst a.rev =
              a.data.cap >>> (K - k) - 2 * auxAt net0 v i) ∧
          ((v, i) ∉ P → auxAt m v i = auxAt net0 v i ∧
            auxAt m a.dst a.rev = auxAt net0 a.dst a.rev))) →
      (WF (R.foldl (dfStep K k) m) ∧ sameShape (R.foldl (dfStep K k) m) net0 ∧
        sameCaps (R.foldl (dfStep K k) m) net0 ∧
        (R.foldl (dfStep K k) m).n = net0.n ∧
        (∀ v i a, arcAt? net0 v i = some a → a.data.is_original = false →
          (((v, i) ∈ P ++ R →
              auxAt (R.foldl (dfStep K k) m) v i = 2 * auxAt net0 v i ∧
              auxAt (R.foldl (dfStep K k) m) a.dst a.rev =
                a.data.cap >>> (K - k) - 2 * auxAt net0 v i) ∧
            ((v, i) ∉ P ++ R →
              auxAt (R.foldl (dfStep K k) m) v i = auxAt net0 v i ∧
              auxAt (R.foldl (dfStep K k) m) a.dst a.rev =
                auxAt net0 a.dst a.rev)))) := by
  intro R
  induction R with
  | nil =>
      intro P m hnd h1 h2 h3 h4 hB
      simp only [List.foldl_nil, List.append_nil]
      exact ⟨h1, h2, h3, h4, hB⟩
  | cons r R' ih =>
      intro P m hnd hWFm hsh hcaps hn hB
      rcases r with ⟨u, j⟩
      rw [List.append_cons, List.foldl_cons]
      have hnd' : ((P ++ [(u, j)]) ++ R').Nodup := by
        rw [← List.append_cons]
        exact hnd
      rcases hm : arcAt? m u j with _ | em
      · -- empty position: the step is a no-op and nothing matches it
        rw [dfStep_none hm]
        have ha0 : arcAt? net0 u j = none := by
          have hh := hsh u j
          rw [shapeAt, shapeAt, hm] at hh
          rcases hx : arcAt? net0 u j with _ | a0
          · rfl
          · rw [hx] at hh
            exact absurd hh (by simp)
        refine ih (P ++ [(u, j)]) m hnd' hWFm hsh hcaps hn ?_
        intro v i a ha hflagA
        have hne : (v, i) ≠ (u, j) := by
          intro hh
          injection hh with h1 h2
          subst h1
          subst h2
          rw [ha] at ha0
          exact absurd ha0 (by simp)
        constructor
        · intro hmem
          have hPm : (v, i) ∈ P := by
            rcases List.mem_append.mp hmem with h | h
            · exact h
            · exact absurd (List.mem_singleton.mp h) hne
          exact (hB v i a ha hflagA).1 hPm
        · intro hmem
          exact (hB v i a ha hflagA).2
            (fun hp => hmem (List.mem_append.mpr (Or.inl hp)))
      · by_cases hflag : em.data.is_original = true
        · -- an original arc: the step is a no-op
          rw [dfStep_orig hm hflag]
          obtain ⟨a0, ha0, -, -, -⟩ :=
            arcAt?_of_sameShape (fun v i => (hsh v i).symm) hm
          have hcf : (em.data.cap, em.data.is_original) =
              (a0.data.cap, a0.data.is_original) := by
            have hh := hcaps u j
            rw [capFlagAt, capFlagAt, hm, ha0] at hh
            exact Option.some.inj hh
          injection hcf with hcf1 hcf2
          have hflag0 : a0.data.is_original = true := by
            rw [← hcf2]
            exact hflag
          refine ih (P ++ [(u, j)]) m hnd' hWFm hsh hcaps hn ?_
          intro v i a ha hflagA
          have hne : (v, i) ≠ (u, j) := by
            intro hh
            injection hh with h1 h2
            subst h1
            subst h2
            rw [ha] at ha0
            have haa : a = a0 := Option.some.inj ha0
            rw [haa, hflag0] at hflagA
            exact absurd hflagA (by simp)
          constructor
          · intro hmem
            have hPm : (v, i) ∈ P := by
              rcases List.mem_append.mp hmem with h | h
              · exact h
              · exact absurd (List.mem_singleton.mp h) hne
            exact (hB v i a ha hflagA).1 hPm
          · intro hmem
            exact (hB v i a ha hflagA).2
              (fun hp => hmem (List.mem_append.mpr (Or.inl hp)))
        · -- a non-original arc: double it and rewrite its pair
          obtain ⟨hWF1, hsh1step, hcaps1step, hn1step, haux1⟩ :=
            dfStep_facts hWFm hm hflag K k
          obtain ⟨a0, ha0, -, ha0dst, ha0rev⟩ :=
            arcAt?_of_sameShape (fun v i => (hsh v i).symm) hm
          have hcf : (em.data.cap, em.data.is_original) =
              (a0.data.cap, a0.data.is_original) := by
            have hh := hcaps u j
            rw [capFlagAt, capFlagAt, hm, ha0] at hh
            exact Option.some.inj hh
          injection hcf with hcf1 hcf2
          have hflag0 : a0.data.is_original = false := by
            rw [← hcf2]
            cases hb : em.data.is_original
            · rfl
            · exact absurd hb hflag
          have hrP : (u, j) ∉ P := by
            intro hp
            exact ((List.nodup_append.mp hnd).2.2 hp) (List.mem_cons_self ..)
          have hBr := (hB u j a0 ha0 hflag0).2 hrP
          have hx0 : em.data.cap_aux = auxAt net0 u j := by
            rw [← hBr.1, ← auxAt_eq hm]
          have hx0' : a0.data.cap_aux = auxAt net0 u j := (auxAt_eq ha0).symm
          obtain ⟨hb1, hb2⟩ := HB u j a0 ha0 hflag0
          have hb1' : 2 * auxAt net0 u j ≤ a0.data.cap >>> (K - k) := by
            rw [← hx0']
            exact hb1
          have hnewAux : (2 * em.data.cap_aux) % W64 = 2 * auxAt net0 u j := by
            rw [hx0]
            exact Nat.mod_eq_of_lt (by omega)
          have hdne_m : em.dst ≠ u := (hWFm.2 u j em hm).2.2.1
          refine ih (P ++ [(u, j)]) (dfStep K k m (u, j)) hnd' hWF1
            (sameShape_trans hsh1step hsh)
            (fun v i => (hcaps1step v i).trans (hcaps v i))
            (hn1step.trans hn) ?_
          intro v i a ha hflagA
          by_cases hqr : (v, i) = (u, j)
          · have hvu : (v, i).1 = (u, j).1 := congrArg Prod.fst hqr
            have hij : (v, i).2 = (u, j).2 := congrArg Prod.snd hqr
            simp only [] at hvu hij
            subst hvu
            subst hij
            have haa0 : a = a0 := by
              rw [ha] at ha0
              exact Option.some.inj ha0
            subst haa0
            constructor
            · intro hmem2
              constructor
              · rw [haux1 v i,
                  if_neg (by rintro ⟨h, -⟩; exact hdne_m h.symm), if_pos ⟨rfl, rfl⟩]
                exact hnewAux
              · rw [haux1 a.dst a.rev, if_pos ⟨ha0dst, ha0rev⟩, hnewAux, ← hcf1]
                exact wsub_eq (by rw [hcf1]; exact hb1') (by rw [hcf1]; exact hb2)
            · intro hmem2
              exact absurd
                (List.mem_append.mpr (Or.inr (List.mem_singleton.mpr rfl))) hmem2
          · -- a position different from the processed one: untouched
            obtain ⟨-, b0q, hb0q, hb0qc, hb0qf⟩ := hWF0.2 v i a ha
            have hq_ne_pairr : ¬(v = em.dst ∧ i = em.rev) := by
              rintro ⟨rfl, rfl⟩
              obtain ⟨-, b0, hb0, -, hb0f⟩ := hWF0.2 u j a0 ha0
              rw [ha0dst, ha0rev, ha] at hb0
              have hba : b0 = a := (Option.some.inj hb0).symm
              rw [hba, hflagA] at hb0f
              rw [hflag0] at hb0f
              exact absurd hb0f (by simp)
            have hpq_ne_r : ¬(a.dst = u ∧ a.rev = j) := by
              rintro ⟨h1, h2⟩
              rw [h1, h2, ha0] at hb0q
              have hba : b0q = a0 := (Option.some.inj hb0q).symm
              rw [hba, hflag0] at hb0qf
              rw [hflagA] at hb0qf
              exact absurd hb0qf (by simp)
            have hpq_ne_pairr : ¬(a.dst = em.dst ∧ a.rev = em.rev) := by
              rintro ⟨h1, h2⟩
              obtain ⟨-, -, -, bW, hbW, hbWdst, hbWrev⟩ := hWF0.1.2 v i a ha
              obtain ⟨-, -, -, bW0, hbW0, hbW0dst, hbW0rev⟩ := hWF0.1.2 u j a0 ha0
              rw [h1, h2, ← ha0dst, ← ha0rev] at hbW
              rw [hbW] at hbW0
              have hbb : bW0 = bW := (Option.some.inj hbW0).symm
              rw [hbb] at hbW0dst hbW0rev
              exact hqr (by rw [← hbWdst, ← hbWrev, hbW0dst, hbW0rev])
            have hauxq : auxAt (dfStep K k m (u, j)) v i = auxAt m v i := by
              rw [haux1 v i, if_neg hq_ne_pairr,
                if_neg (by rintro ⟨h3, h4⟩; exact hqr (by rw [h3, h4]))]
            have hauxpq : auxAt (dfStep K k m (u, j)) a.dst a.rev =
                auxAt m a.dst a.rev := by
              rw [haux1 a.dst a.rev, if_neg hpq_ne_pairr, if_neg hpq_ne_r]
            constructor
            · intro hmem2
              have hPm : (v, i) ∈ P := by
                rcases List.mem_append.mp hmem2 with h | h
                · exact h
                · exact absurd (List.mem_singleton.mp h) hqr
              obtain ⟨c1, c2⟩ := (hB v i a ha hflagA).1 hPm
              exact ⟨by rw [hauxq]; exact c1, by rw [hauxpq]; exact c2⟩
            · intro hmem2
              obtain ⟨c1, c2⟩ := (hB v i a ha hflagA).2
                (fun hp => hmem2 (List.mem_append.mpr (Or.inl hp)))
              exact ⟨by rw [hauxq]; exact c1, by rw [hauxpq]; exact c2⟩

end CapacityScaling
end MaxFlowSpec

namespace MaxFlowSpec
namespace CapacityScaling

/-- `DoubleFlowAndMakeAuxiliaryNetwork(k)` on a well-formed state whose
non-original `cap_aux` values satisfy the doubling bound: structure and
immutable data are preserved and **every** pair's `cap_aux` sum becomes the
`k`-th restricted capacity `cap >>> (K - k)`. -/
theorem DoubleFlow_pairs (net0 : CSNet) (K k : Nat) (hWF0 : CSWF net0)
    (HB : ∀ v i a, arcAt? net0 v i = some a → a.data.is_original = false →
      2 * a.data.cap_aux ≤ a.data.cap >>> (K - k) ∧ a.data.cap >>> (K - k) < W64) :
    WF (DoubleFlowAndMakeAuxiliaryNetwork K k net0) ∧
    sameShape (DoubleFlowAndMakeAuxiliaryNetwork K k net0) net0 ∧
    sameCaps (DoubleFlowAndMakeAuxiliaryNetwork K k net0) net0 ∧
    (DoubleFlowAndMakeAuxiliaryNetwork K k net0).n = net0.n ∧
    (∀ v i a, arcAt? net0 v i = some a →
      auxPairSum (DoubleFlowAndMakeAuxiliaryNetwork K k net0) v i =
        a.data.cap >>> (K - k)) := by
  obtain ⟨d1, d2, d3, d4, d5⟩ := dfStep_fold net0 K k hWF0 HB (slots net0) [] net0
    (by
      have hh := slots_nodup net0
      simpa using hh)
    hWF0.1 (sameShape_refl net0) (fun _ _ => rfl) rfl
    (fun v i a ha hflagA =>
      ⟨fun hmem => absurd hmem (List.not_mem_nil _), fun _ => ⟨rfl, rfl⟩⟩)
  rw [DoubleFlowAndMakeAuxiliaryNetwork]
  refine ⟨d1, d2, d3, d4, ?_⟩
  intro v i a ha
  obtain ⟨amd, hamd, -, hamddst, hamdrev⟩ := arcAt?_of_sameShape d2 ha
  have hsum : auxPairSum ((slots net0).foldl (dfStep K k) net0) v i =
      auxAt ((slots net0).foldl (dfStep K k) net0) v i +
        auxAt ((slots net0).foldl (dfStep K k) net0) a.dst a.rev := by
    rw [auxPairSum_def, hamd]
    simp only []
    rw [← hamddst, ← hamdrev, ← auxAt_eq hamd]
  by_cases hfa : a.data.is_original = false
  · obtain ⟨c1, c2⟩ := (d5 v i a ha hfa).1 (by
      have hh := mem_slots hWF0.1.1 ha
      simpa using hh)
    obtain ⟨hb1, -⟩ := HB v i a ha hfa
    have hx : a.data.cap_aux = auxAt net0 v i := (auxAt_eq ha).symm
    rw [hx] at hb1
    rw [hsum, c1, c2]
    omega
  · have hft : a.data.is_original = true := by
      cases hb : a.data.is_original
      · exact absurd hb hfa
      · rfl
    obtain ⟨-, b0, hb0, hb0c, hb0f⟩ := hWF0.2 v i a ha
    have hb0flag : b0.data.is_original = false := by
      rw [hb0f, hft]
      rfl
    obtain ⟨-, -, -, bW, hbW, hbWdst, hbWrev⟩ := hWF0.1.2 v i a ha
    have hbWb0 : bW = b0 := by
      rw [hbW] at hb0
      exact Option.some.inj hb0
    obtain ⟨c1, c2⟩ := (d5 a.dst a.rev b0 hb0 hb0flag).1 (by
      have hh := mem_slots hWF0.1.1 hb0
      simpa using hh)
    obtain ⟨hb1, -⟩ := HB a.dst a.rev b0 hb0 hb0flag
    have hx : b0.data.cap_aux = auxAt net0 a.dst a.rev := (auxAt_eq hb0).symm
    rw [hx, hb0c] at hb1
    have hb0dst : b0.dst = v := by rw [← hbWb0]; exact hbWdst
    have hb0rev : b0.rev = i := by rw [← hbWb0]; exact hbWrev
    rw [hb0dst, hb0rev] at c2
    rw [hsum, c1, c2, hb0c]
    omega

/-- The network state after `j` complete scaling iterations keeps the
structure and immutable data of the input, and every pair's `cap_aux` sum
equals the input capacity shifted right by `K - j`. -/
theorem IterStates_inv (net0 : CSNet) (K s t inf fuel : Nat)
    (hWF0 : CSWF net0) (hz : ∀ v i, auxAt net0 v i = 0)
    (hcap : ∀ v i a, arcAt? net0 v i = some a → a.data.cap < 2 ^ K)
    (hs : s < net0.n ∨ s = t) :
    ∀ j, j ≤ K → ∀ m, IterStates K s t inf fuel net0 j = some m →
      CSWF m ∧ sameShape m net0 ∧ sameCaps m net0 ∧ m.n = net0.n ∧
      (∀ v i a, arcAt? net0 v i = some a →
        auxPairSum m v i = a.data.cap >>> (K - j)) := by
  intro j
  induction j with
  | zero =>
      intro _ m hm
      rw [IterStates] at hm
      cases hm
      refine ⟨hWF0, sameShape_refl net0, fun _ _ => rfl, rfl, ?_⟩
      intro v i a ha
      have hz1 : auxPairSum net0 v i = 0 := by
        rw [auxPairSum_def, ha]
        simp only []
        rw [← auxAt_eq ha, hz v i, hz a.dst a.rev]
      rw [hz1, Nat.shiftRight_eq_div_pow, Nat.sub_zero,
        Nat.div_eq_of_lt (hcap v i a ha)]
  | succ j ih =>
      intro hjK m hm
      rw [IterStates] at hm
      rcases hprev : IterStates K s t inf fuel net0 j with _ | mp
      · rw [hprev] at hm
        exact absurd hm (by simp)
      · rw [hprev] at hm
        simp only [] at hm
        obtain ⟨p1, p2, p3, p4, p5⟩ := ih (by omega) mp hprev
        have hCSmp : CSWF mp := p1
        have HB : ∀ v i a, arcAt? mp v i = some a → a.data.is_original = false →
            2 * a.data.cap_aux ≤ a.data.cap >>> (K - (j + 1)) ∧
              a.data.cap >>> (K - (j + 1)) < W64 := by
          intro v i a ha hflagA
          obtain ⟨a0, ha0, -, -, -⟩ :=
            arcAt?_of_sameShape (fun x y => (p2 x y).symm) ha
          have hcf : (a.data.cap, a.data.is_original) =
              (a0.data.cap, a0.data.is_original) := by
            have hh := p3 v i
            rw [capFlagAt, capFlagAt, ha, ha0] at hh
            exact Option.some.inj hh
          injection hcf with hcf1 hcf2
          have hsump := p5 v i a0 ha0
          have hle : a.data.cap_aux ≤ auxPairSum mp v i := by
            rw [auxPairSum_def, ha]
            show a.data.cap_aux ≤ a.data.cap_aux + auxAt mp a.dst a.rev
            omega
          have hcw : a.data.cap < W64 := (hCSmp.2 v i a ha).1
          have hdb : 2 * (a.data.cap >>> (K - j)) ≤ a.data.cap >>> (K - (j + 1)) := by
            have hKj : K - j = (K - (j + 1)) + 1 := by omega
            rw [hKj, Nat.shiftRight_succ]
            have hmul := Nat.div_mul_le_self (a.data.cap >>> (K - (j + 1))) 2
            omega
          have hsr : a.data.cap >>> (K - (j + 1)) ≤ a.data.cap := by
            rw [Nat.shiftRight_eq_div_pow]
            exact Nat.div_le_self _ _
          refine ⟨?_, by omega⟩
          rw [← hcf1] at hsump
          omega
        obtain ⟨q1, q2, q3, q4, q5⟩ := DoubleFlow_pairs mp K (j + 1) hCSmp HB
        rcases hsat : SatLoop s t inf fuel
            (DoubleFlowAndMakeAuxiliaryNetwork K (j + 1) mp) 0 with _ | fl
        · rw [hsat] at hm
          exact absurd hm (by simp)
        · rcases fl with ⟨fl1, m1⟩
          rw [hsat] at hm
          simp only [] at hm
          have hmm : m1 = m := Option.some.inj hm
          subst hmm
          have hCSmd : CSWF (DoubleFlowAndMakeAuxiliaryNetwork K (j + 1) mp) :=
            CSWF_transfer hCSmp q1 q2 q3
          have hsums : ∀ v' i',
              auxPairSum (DoubleFlowAndMakeAuxiliaryNetwork K (j + 1) mp) v' i' <
                W64 := by
            intro v' i'
            rcases harc : arcAt? (DoubleFlowAndMakeAuxiliaryNetwork K (j + 1) mp) v' i'
              with _ | ad
            · rw [auxPairSum_def, harc]
              show 0 < W64
              rw [W64]
              omega
            · obtain ⟨amp, hamp, -, -, -⟩ :=
                arcAt?_of_sameShape (fun x y => (q2 x y).symm) harc
              rw [q5 v' i' amp hamp]
              have hcw : amp.data.cap < W64 := (hCSmp.2 v' i' amp hamp).1
              have hle : amp.data.cap >>> (K - (j + 1)) ≤ amp.data.cap := by
                rw [Nat.shiftRight_eq_div_pow]
                exact Nat.div_le_self _ _
              omega
          obtain ⟨w1, w2, w3, w4, w5⟩ := SatLoop_inv s t inf fuel
            (DoubleFlowAndMakeAuxiliaryNetwork K (j + 1) mp) 0 fl1 m1 q1 hsums
            (by
              rcases hs with hs | hs
              · left
                rw [q4, p4]
                exact hs
              · right
                exact hs) hsat
          refine ⟨CSWF_transfer hWF0 w1
              (sameShape_trans w2 (sameShape_trans q2 p2))
              (fun x y => (w5 x y).trans ((q3 x y).trans (p3 x y))),
            sameShape_trans w2 (sameShape_trans q2 p2),
            fun x y => (w5 x y).trans ((q3 x y).trans (p3 x y)),
            w4.trans (q4.trans p4), ?_⟩
          intro v i a ha
          obtain ⟨amp, hamp, -, -, -⟩ := arcAt?_of_sameShape p2 ha
          have hcf : (amp.data.cap, amp.data.is_original) =
              (a.data.cap, a.data.is_original) := by
            have hh := p3 v i
            rw [capFlagAt, capFlagAt, hamp, ha] at hh
            exact Option.some.inj hh
          injection hcf with hcf1 hcf2
          rw [w3 v i, q5 v i amp hamp, hcf1]

/-- At the moment iteration `k` has just rebuilt the auxiliary network,
every pair's `cap_aux` sum equals the restricted capacity
`cap >>> (K - k)`. -/
theorem AfterDouble_pairs (net0 : CSNet) (K s t inf fuel : Nat)
    (hWF0 : CSWF net0) (hz : ∀ v i, auxAt net0 v i = 0)
    (hcap : ∀ v i a, arcAt? net0 v i = some a → a.data.cap < 2 ^ K)
    (hs : s < net0.n ∨ s = t) (k : Nat) (hk1 : 1 ≤ k) (hkK : k ≤ K)
    (md : CSNet) (hAD : AfterDouble K s t inf fuel net0 k = some md) :
    ∀ v i a, arcAt? net0 v i = some a →
      auxPairSum md v i = a.data.cap >>> (K - k) := by
  rw [AfterDouble] at hAD
  rcases hprev : IterStates K s t inf fuel net0 (k - 1) with _ | mp
  · rw [hprev] at hAD
    exact absurd hAD (by simp)
  · rw [hprev] at hAD
    have hmd : md = DoubleFlowAndMakeAuxiliaryNetwork K k mp := by
      have hh : some (DoubleFlowAndMakeAuxiliaryNetwork K k mp) = some md := hAD
      exact (Option.some.inj hh).symm
    obtain ⟨p1, p2, p3, p4, p5⟩ := IterStates_inv net0 K s t inf fuel hWF0 hz hcap hs
      (k - 1) (by omega) mp hprev
    have hkk : (k - 1) + 1 = k := by omega
    have HB : ∀ v i a, arcAt? mp v i = some a → a.data.is_original = false →
        2 * a.data.cap_aux ≤ a.data.cap >>> (K - k) ∧
          a.data.cap >>> (K - k) < W64 := by
      intro v i a ha hflagA
      obtain ⟨a0, ha0, -, -, -⟩ :=
        arcAt?_of_sameShape (fun x y => (p2 x y).symm) ha
      have hcf : (a.data.cap, a.data.is_original) =
          (a0.data.cap, a0.data.is_original) := by
        have hh := p3 v i
        rw [capFlagAt, capFlagAt, ha, ha0] at hh
        exact Option.some.inj hh
      injection hcf with hcf1 hcf2
      have hsump := p5 v i a0 ha0
      have hle : a.data.cap_aux ≤ auxPairSum mp v i := by
        rw [auxPairSum_def, ha]
        show a.data.cap_aux ≤ a.data.cap_aux + auxAt mp a.dst a.rev
        omega
      have hcw : a.data.cap < W64 := (p1.2 v i a ha).1
      have hdb : 2 * (a.data.cap >>> (K - (k - 1))) ≤ a.data.cap >>> (K - k) := by
        have hKj : K - (k - 1) = (K - k) + 1 := by omega
        rw [hKj, Nat.shiftRight_succ]
        have hmul := Nat.div_mul_le_self (a.data.cap >>> (K - k)) 2
        omega
      have hsr : a.data.cap >>> (K - k) ≤ a.data.cap := by
        rw [Nat.shiftRight_eq_div_pow]
        exact Nat.div_le_self _ _
      refine ⟨?_, by omega⟩
      rw [← hcf1] at hsump
      omega
    obtain ⟨-, -, -, -, q5⟩ := DoubleFlow_pairs mp K k p1 HB
    intro v i a ha
    obtain ⟨amp, hamp, -, -, -⟩ := arcAt?_of_sameShape p2 ha
    have hcf : (amp.data.cap, amp.data.is_original) =
        (a.data.cap, a.data.is_original) := by
      have hh := p3 v i
      rw [capFlagAt, capFlagAt, hamp, ha] at hh
      exact Option.some.inj hh
    injection hcf with hcf1 hcf2
    rw [hmd, q5 v i amp hamp, hcf1]

end CapacityScaling
end MaxFlowSpec

namespace MaxFlowSpec

/-! ### Claim theorems -/

/-- C1: the four solvers do **not** always agree.  On the two-vertex
network built by `add_arc(0,1,2); add_arc(0,1,1)` (two parallel arcs),
FordFulkerson, Dinic and CapacityScaling all return the maximum flow `3`,
but EdmondsKarp returns `2`: its update walk, which lacks the `break` of
the bottleneck walk, subtracts the bottleneck from **both** parallel arcs,
destroying the second arc's capacity. -/
theorem C1_agreement_eval :
    (FordFulkerson.MaximumFlow 10 (buildNet 2 [(0,1,2),(0,1,1)]) 0 1).map Prod.fst =
      some 3 ∧
    (Dinic.MaximumFlow 10 (buildNet 2 [(0,1,2),(0,1,1)]) 0 1).map Prod.fst = some 3 ∧
    (CapacityScaling.MaximumFlow 10
        (CapacityScaling.buildCS 2 [(0,1,2),(0,1,1)]) 0 1).map Prod.fst = some 3 ∧
    (EdmondsKarp.MaximumFlow 10 (buildNet 2 [(0,1,2),(0,1,1)]) 0 1).map Prod.fst =
      some 2 :=
  ⟨rfl, rfl, rfl, rfl⟩

/-- C2 (amended): the first infeasibility check of
`MaximumFlowWithLowerBound::MaximumFlow` happens only after **both** `f1`
(super source to super sink) and `f2` (`s` to super sink) have been
computed, and it tests `f1 + f2 ≠ sum_lb`, not `f1 ≠ sum_lb`; when that
combined test fails the function returns `-1` with no further max-flow
sub-computations (`f3`, `f4` are not run). -/
theorem C2_first_check (fuel : Nat) (lb : LowerBound.LBNet) (s t : Nat)
    (inf : Int) (f1 f2 : Int) (g2 : FNet)
    (hP : LowerBound.Phase12 fuel lb s inf = some (f1, f2, g2))
    (hne : f1 + f2 ≠ lb.sum_lb) :
    LowerBound.MaximumFlow fuel lb s t inf = some (-1, { lb with algo := g2 }) := by
  rw [LowerBound.MaximumFlow, hP]
  simp only []
  rw [if_pos hne]

/-- C2 (counterexample to the specified behaviour): on the lower-bound
instance `n = 3`, `add_arc(1,2,lb=1,ub=1)` with `s = 0`, `t = 1`, the first
max flow `f1` from the super source to the super sink is `0`, different
from the lower-bound sum `1` — yet `MaximumFlow` does *not* report
infeasibility: it proceeds (computing `f2 = 1`, which makes the code's
combined test `f1 + f2 ≠ sum_lb` pass) and returns the flow `1`. -/
theorem C2_counterexample :
    ∃ lb : LowerBound.LBNet, LowerBound.buildLB 2 [(0,1,1,1)] = some lb ∧
      (Dinic.MaximumFlow 10 lb.algo lb.SuperSource lb.SuperSink ffINF).map Prod.fst =
        some 0 ∧
      lb.sum_lb = 1 ∧
      (LowerBound.MaximumFlow 10 lb 0 1).map Prod.fst = some 1 :=
  ⟨(LowerBound.buildLB 2 [(0,1,1,1)]).getD (LowerBound.mkLB 0), rfl, rfl, rfl, rfl⟩

/-- C2 witness: a concrete run in which the combined first check fails
(`f1 = f2 = 0` while `sum_lb = 1`) and `MaximumFlow` returns `-1`
immediately after `Phase12`. -/
theorem C2_first_check_witness :
    ∃ g2 : FNet,
      LowerBound.Phase12 10
          ((LowerBound.buildLB 3 [(1,2,1,1)]).getD (LowerBound.mkLB 0)) 0 ffINF =
        some (0, 0, g2) ∧
      ((0 : Int) + 0 ≠
        ((LowerBound.buildLB 3 [(1,2,1,1)]).getD (LowerBound.mkLB 0)).sum_lb) ∧
      LowerBound.MaximumFlow 10
          ((LowerBound.buildLB 3 [(1,2,1,1)]).getD (LowerBound.mkLB 0)) 0 2 ffINF =
        some (-1, { (LowerBound.buildLB 3 [(1,2,1,1)]).getD (LowerBound.mkLB 0) with
                      algo := ((LowerBound.Phase12 10
                          ((LowerBound.buildLB 3 [(1,2,1,1)]).getD (LowerBound.mkLB 0))
                          0 ffINF).getD (0, 0, initNet Int 0)).2.2 }) :=
  ⟨((LowerBound.Phase12 10
      ((LowerBound.buildLB 3 [(1,2,1,1)]).getD (LowerBound.mkLB 0))
      0 ffINF).getD (0, 0, initNet Int 0)).2.2, rfl, by decide,
    C2_first_check 10 ((LowerBound.buildLB 3 [(1,2,1,1)]).getD (LowerBound.mkLB 0))
      0 2 ffINF 0 0 _ rfl (by decide)⟩

/-- C3 (amended): `add_arc(u, v, cap)` performs **no** validation of the
capacity sign: for any `cap`, including negative values, it unconditionally
appends the forward arc `u→v` carrying `cap` and the reverse arc `v→u`
carrying `0` to the two adjacency lists (endpoints in range and distinct). -/
theorem C3_add_arc (net : FNet) (u v : Nat) (cap : Int)
    (hu : u < net.adj.length) (hv : v < net.adj.length) (huv : u ≠ v) :
    arcAt? (add_arc net u v cap) u (getAdj net u).length =
      some ⟨u, v, (getAdj net v).length, cap⟩ ∧
    arcAt? (add_arc net u v cap) v (getAdj net v).length =
      some ⟨v, u, (getAdj net u).length, 0⟩ := by
  constructor
  · rw [add_arc, arcAt?_addArcG net u v cap 0 hu hv huv, if_pos ⟨rfl, rfl⟩]
  · rw [add_arc, arcAt?_addArcG net u v cap 0 hu hv huv,
      if_neg (by rintro ⟨hh, -⟩; exact huv hh.symm), if_pos ⟨rfl, rfl⟩]

/-- C3 (counterexample): a negative capacity is not rejected — there is no
`InvalidCapacity` check anywhere in `add_arc` — and the network *is*
mutated: `add_arc(0, 1, -1)` on a fresh two-vertex network appends the arc
`0→1` with capacity `-1` and its reverse arc. -/
theorem C3_counterexample :
    arcAt? (initNet Int 2) 0 0 = none ∧
    arcAt? (add_arc (initNet Int 2) 0 1 (-1)) 0 0 = some ⟨0, 1, 0, -1⟩ ∧
    arcAt? (add_arc (initNet Int 2) 0 1 (-1)) 1 0 = some ⟨1, 0, 0, 0⟩ :=
  ⟨rfl, rfl, rfl⟩

/-- C3 witness: the amended theorem applied to `add_arc(0, 1, -1)` on a
fresh two-vertex network. -/
theorem C3_add_arc_witness :
    0 < (initNet Int 2).adj.length ∧ 1 < (initNet Int 2).adj.length ∧
    (0 : Nat) ≠ 1 ∧
    (arcAt? (add_arc (initNet Int 2) 0 1 (-1)) 0 (getAdj (initNet Int 2) 0).length =
        some ⟨0, 1, (getAdj (initNet Int 2) 1).length, -1⟩ ∧
      arcAt? (add_arc (initNet Int 2) 0 1 (-1)) 1 (getAdj (initNet Int 2) 1).length =
        some ⟨1, 0, (getAdj (initNet Int 2) 0).length, 0⟩) :=
  ⟨by decide, by decide, by decide,
    C3_add_arc (initNet Int 2) 0 1 (-1) (by decide) (by decide) (by decide)⟩

/-- C4: the bottleneck walk and the update walk of `EdmondsKarp::Bfs` do
**not** traverse the same arc set.  With the parallel arcs
`add_arc(0,1,2); add_arc(0,1,1)`, the bottleneck walk `break`s at the first
arc with head `1` and returns `f = 2` (the second arc's capacity `1` never
enters the minimum), while the update walk — whose inner loop has no
`break` — subtracts `f` from *both* arcs, leaving the second at `-1`. -/
theorem C4_two_walks_eval :
    ∃ net1, EdmondsKarp.Bfs (buildNet 2 [(0,1,2),(0,1,1)]) 0 1 ffINF =
        some (2, net1) ∧
      capAt net1 0 0 = 0 ∧ capAt net1 0 1 = -1 :=
  ⟨((EdmondsKarp.Bfs (buildNet 2 [(0,1,2),(0,1,1)]) 0 1 ffINF).getD
      (0, initNet Int 0)).2, rfl, rfl, rfl⟩

/-- C5 (amended): for a pair of arcs created by `add_arc(u, v, cap)` with
distinct in-range endpoints, the sum of the new arc's residual capacity and
its pair's equals the original capacity `cap` immediately after
construction, and the two-write capacity transfer `augment` — the only
mutation the signed-capacity search strategies perform — preserves every
pair sum of a well-formed network. -/
theorem C5_pairSum (net : FNet) (u v : Nat) (cap : Int) (net' : FNet)
    (w j : Nat) (d : Int) (v' i' : Nat)
    (hu : u < net.adj.length) (hv : v < net.adj.length) (huv : u ≠ v)
    (hWF' : WF net') :
    pairSum (add_arc net u v cap) u (getAdj net u).length = cap ∧
    pairSum (augment net' w j d) v' i' = pairSum net' v' i' := by
  constructor
  · have hf : arcAt? (add_arc net u v cap) u (getAdj net u).length =
        some ⟨u, v, (getAdj net v).length, cap⟩ := by
      rw [add_arc, arcAt?_addArcG net u v cap 0 hu hv huv, if_pos ⟨rfl, rfl⟩]
    have hb : arcAt? (add_arc net u v cap) v (getAdj net v).length =
        some ⟨v, u, (getAdj net u).length, 0⟩ := by
      rw [add_arc, arcAt?_addArcG net u v cap 0 hu hv huv,
        if_neg (by rintro ⟨hh, -⟩; exact huv hh.symm), if_pos ⟨rfl, rfl⟩]
    rw [pairSum, hf]
    simp only []
    rw [capAt_eq hb]
    simp
  · exact pairSum_augment hWF' w j d v' i'

/-- C5 (counterexample): a self-loop breaks the pair-sum invariant at
construction.  `add_arc(0, 0, 5)` stores the reverse index
`adj[dst].size()` computed *after* the forward `emplace_back`, so on a
self-loop the forward arc's `rev` points at the forward arc itself and the
pair sum is `5 + 5 = 10`, not the original capacity `5`. -/
theorem C5_counterexample :
    pairSum (add_arc (initNet Int 2) 0 0 5) 0 0 = 10 ∧ (10 : Int) ≠ 5 :=
  ⟨rfl, by decide⟩

/-- C5 witness: the amended theorem applied to `add_arc(0, 1, 7)` on a
fresh network and to one `augment` step on the built network. -/
theorem C5_pairSum_witness :
    0 < (initNet Int 2).adj.length ∧ 1 < (initNet Int 2).adj.length ∧
    (0 : Nat) ≠ 1 ∧ WF (buildNet 2 [(0,1,7)]) ∧
    (pairSum (add_arc (initNet Int 2) 0 1 7) 0 (getAdj (initNet Int 2) 0).length = 7 ∧
      pairSum (augment (buildNet 2 [(0,1,7)]) 0 0 3) 0 0 =
        pairSum (buildNet 2 [(0,1,7)]) 0 0) :=
  ⟨by decide, by decide, by decide, (buildNet_facts 2 [(0,1,7)] (by decide)).1,
    C5_pairSum (initNet Int 2) 0 1 7 (buildNet 2 [(0,1,7)]) 0 0 3 0 0
      (by decide) (by decide) (by decide) (buildNet_facts 2 [(0,1,7)] (by decide)).1⟩

/-- C6: with every capacity zero, `CapacityScalingAlgorithm::MaximumFlow`
does **not** short-circuit: `max_cap = 0` and the code immediately
evaluates `std::floor(std::log2(0) + 1)` — `std::log2(0)` is `-inf` and its
conversion to `unsigned` is undefined behaviour, modelled as `none` — so
the run does not return the flow `0` demanded by the specification. -/
theorem C6_log_zero_eval :
    CapacityScaling.maxCap (CapacityScaling.buildCS 2 [(0,1,0)]) = 0 ∧
    CapacityScaling.MaximumFlow 10 (CapacityScaling.buildCS 2 [(0,1,0)]) 0 1 = none :=
  ⟨rfl, rfl⟩

/-- C8 (amended): on a network with no positive-residual path from `s` to
`t`, FordFulkerson, EdmondsKarp and Dinic `MaximumFlow` all return `0`
without mutating the network — but **not** CapacityScaling (see the
counterexample: its re-run doubles the stale `cap_aux` state and returns
`2 ^ 64 - 1`). -/
theorem C8_idempotent (net : FNet) (s t : Nat) (inf : Int) (fuel : Nat)
    (hWF : WF net) (hinf : 0 < inf) (hs : s < net.n) (ht : t < net.n)
    (hno : ¬ ResReach net s t) :
    FordFulkerson.MaximumFlow (fuel + 1) net s t inf = some (0, net) ∧
    EdmondsKarp.MaximumFlow (fuel + 1) net s t inf = some (0, net) ∧
    Dinic.MaximumFlow (fuel + 1) net s t inf = some (0, net) :=
  ⟨FordFulkerson.MaximumFlow_exhausted_ff net s t inf fuel hWF hinf hs hno,
    EdmondsKarp.MaximumFlow_exhausted_ek net s t inf fuel ht hno,
    Dinic.MaximumFlow_exhausted_dinic net s t inf fuel ht hno⟩

/-- C8 (counterexample): CapacityScaling is *not* idempotent at exhaustion.
After `MaximumFlow(0, 1)` on the single-arc network of capacity `1`
(result `1`, all residual `cap_aux` out of the source now `0`, so no
augmenting path remains), calling `MaximumFlow(0, 1)` again returns
`2 ^ 64 - 1`: `DoubleFlowAndMakeAuxiliaryNetwork` doubles the stale
reverse `cap_aux` and the unsigned subtraction `cap_aux - e.cap_aux`
wraps around. -/
theorem C8_counterexample :
    ∃ net1, CapacityScaling.MaximumFlow 20 (CapacityScaling.buildCS 2 [(0,1,1)]) 0 1 =
        some (1, net1) ∧
      auxAt net1 0 0 = 0 ∧ (getAdj net1 0).length = 1 ∧
      (CapacityScaling.MaximumFlow 20 net1 0 1).map Prod.fst =
        some 18446744073709551615 :=
  ⟨((CapacityScaling.MaximumFlow 20 (CapacityScaling.buildCS 2 [(0,1,1)]) 0 1).getD
      (0, initNet CapacityScaling.CSD 0)).2, rfl, rfl, rfl, rfl⟩

/-- C8 witness: the amended theorem applied to the two-vertex network with
one zero-capacity arc, where no positive-residual path exists. -/
theorem C8_idempotent_witness :
    WF (buildNet 2 [(0,1,0)]) ∧ (0 : Int) < ffINF ∧
    0 < (buildNet 2 [(0,1,0)]).n ∧ 1 < (buildNet 2 [(0,1,0)]).n ∧
    ¬ ResReach (buildNet 2 [(0,1,0)]) 0 1 ∧
    (FordFulkerson.MaximumFlow 5 (buildNet 2 [(0,1,0)]) 0 1 ffINF =
        some (0, buildNet 2 [(0,1,0)]) ∧
      EdmondsKarp.MaximumFlow 5 (buildNet 2 [(0,1,0)]) 0 1 ffINF =
        some (0, buildNet 2 [(0,1,0)]) ∧
      Dinic.MaximumFlow 5 (buildNet 2 [(0,1,0)]) 0 1 ffINF =
        some (0, buildNet 2 [(0,1,0)])) := by
  have hno : ¬ ResReach (buildNet 2 [(0,1,0)]) 0 1 := by
    intro h
    cases h with
    | cons e he hpos _ =>
        have he' : e = ⟨0, 1, 0, 0⟩ := List.mem_singleton.mp he
        rw [he'] at hpos
        exact absurd hpos (by decide)
  exact ⟨(buildNet_facts 2 [(0,1,0)] (by decide)).1, by decide, by decide, by decide,
    hno, C8_idempotent (buildNet 2 [(0,1,0)]) 0 1 ffINF 4
      (buildNet_facts 2 [(0,1,0)] (by decide)).1 (by decide) (by decide) (by decide) hno⟩

/-- C10 (amended): for FordFulkerson and Dinic, a well-formed network with
non-negative residual capacities keeps every residual capacity non-negative
through a complete `MaximumFlow` run (the amount pushed never exceeds the
bottleneck of the path) — but **not** for EdmondsKarp, whose update walk
can drive a residual capacity negative (see the counterexample), and
CapacityScaling works in unsigned arithmetic where negativity cannot be
expressed. -/
theorem C10_nonneg (fuel : Nat) (net : FNet) (s t : Nat) (inf : Int)
    (fl1 fl2 : Int) (net1 net2 : FNet)
    (hWF : WF net) (hN : Nonneg net) (hinf : 0 < inf) (hs : s < net.n ∨ s = t)
    (h1 : FordFulkerson.MaximumFlow fuel net s t inf = some (fl1, net1))
    (h2 : Dinic.MaximumFlow fuel net s t inf = some (fl2, net2)) :
    Nonneg net1 ∧ Nonneg net2 :=
  ⟨(FordFulkerson.MaximumFlow_pres_ff fuel net s t inf fl1 net1 hWF hN hinf hs h1).2.1,
    (Dinic.MaximumFlow_pres_dinic fuel net s t inf fl2 net2 hWF hN hinf h2).2.1⟩

/-- C10 (counterexample): EdmondsKarp violates residual non-negativity.
On the network with parallel arcs of capacities `2` and `1` (all
non-negative), a full `MaximumFlow(0, 1)` run leaves the second arc's
residual capacity at `-1`. -/
theorem C10_counterexample :
    Nonneg (buildNet 2 [(0,1,2),(0,1,1)]) ∧
    ∃ net1, EdmondsKarp.MaximumFlow 10 (buildNet 2 [(0,1,2),(0,1,1)]) 0 1 =
        some (2, net1) ∧
      capAt net1 0 1 = -1 ∧ capAt net1 0 1 < 0 :=
  ⟨(buildNet_facts 2 [(0,1,2),(0,1,1)] (by decide)).2.2.2 (by decide),
    ⟨((EdmondsKarp.MaximumFlow 10 (buildNet 2 [(0,1,2),(0,1,1)]) 0 1).getD
        (0, initNet Int 0)).2, rfl, rfl, by decide⟩⟩

/-- C10 witness: the amended theorem applied to a single-arc network of
capacity `1`, on which both solvers return flow `1`. -/
theorem C10_nonneg_witness :
    WF (buildNet 2 [(0,1,1)]) ∧ Nonneg (buildNet 2 [(0,1,1)]) ∧
    (0 : Int) < ffINF ∧ (0 < (buildNet 2 [(0,1,1)]).n ∨ (0 : Nat) = 1) ∧
    FordFulkerson.MaximumFlow 5 (buildNet 2 [(0,1,1)]) 0 1 ffINF =
      some (1, ((FordFulkerson.MaximumFlow 5 (buildNet 2 [(0,1,1)]) 0 1 ffINF).getD
        (0, initNet Int 0)).2) ∧
    Dinic.MaximumFlow 5 (buildNet 2 [(0,1,1)]) 0 1 ffINF =
      some (1, ((Dinic.MaximumFlow 5 (buildNet 2 [(0,1,1)]) 0 1 ffINF).getD
        (0, initNet Int 0)).2) ∧
    (Nonneg ((FordFulkerson.MaximumFlow 5 (buildNet 2 [(0,1,1)]) 0 1 ffINF).getD
        (0, initNet Int 0)).2 ∧
      Nonneg ((Dinic.MaximumFlow 5 (buildNet 2 [(0,1,1)]) 0 1 ffINF).getD
        (0, initNet Int 0)).2) :=
  ⟨(buildNet_facts 2 [(0,1,1)] (by decide)).1,
    (buildNet_facts 2 [(0,1,1)] (by decide)).2.2.2 (by decide),
    by decide, Or.inl (by decide), rfl, rfl,
    C10_nonneg 5 (buildNet 2 [(0,1,1)]) 0 1 ffINF 1 1
      ((FordFulkerson.MaximumFlow 5 (buildNet 2 [(0,1,1)]) 0 1 ffINF).getD
        (0, initNet Int 0)).2
      ((Dinic.MaximumFlow 5 (buildNet 2 [(0,1,1)]) 0 1 ffINF).getD
        (0, initNet Int 0)).2
      (buildNet_facts 2 [(0,1,1)] (by decide)).1
      ((buildNet_facts 2 [(0,1,1)] (by decide)).2.2.2 (by decide))
      (by decide) (Or.inl (by decide)) rfl rfl⟩

/-- C7 (amended): in the capacity-scaling solver, for **every** arc pair of
input capacity `c` and every iteration `k` in `1..K`, the restricted
auxiliary capacity (the `cap_aux` pair sum) assigned at the moment
iteration `k` has rebuilt the auxiliary network equals `⌊c / 2^(K-k)⌋` —
so for capacities `{1, 3, 5}` with `K = 3` the per-iteration restricted
values are `{0,0,1}`, `{0,1,2}`, `{1,3,5}` (the specification's `{0,1,3}`
at `k = 2` contradicts its own formula, which gives `⌊3/2⌋ = 1` and
`⌊5/2⌋ = 2`). -/
theorem C7_scaling (net : CapacityScaling.CSNet) (s t inf fuel K k : Nat)
    (m : CapacityScaling.CSNet) (v i : Nat) (a : Arc CapacityScaling.CSD)
    (hWF : CapacityScaling.CSWF net)
    (hz : ∀ v' i', auxAt net v' i' = 0)
    (hcap : ∀ v' i' a', arcAt? net v' i' = some a' → a'.data.cap < 2 ^ K)
    (hs : s < net.n ∨ s = t) (hk1 : 1 ≤ k) (hkK : k ≤ K)
    (hAD : CapacityScaling.AfterDouble K s t inf fuel net k = some m)
    (ha : arcAt? net v i = some a) :
    CapacityScaling.auxPairSum m v i = a.data.cap / 2 ^ (K - k) := by
  rw [← Nat.shiftRight_eq_div_pow]
  exact CapacityScaling.AfterDouble_pairs net K s t inf fuel hWF hz hcap hs
    k hk1 hkK m hAD v i a ha

/-- C7 (counterexample to the quoted progression): for capacities
`{1, 3, 5}` the code's `NUM_ITER` is `3` and the restricted capacities of
the second iteration are `{0, 1, 2}` — not the `{0, 1, 3}` claimed by the
specification (the first and third iterations do give `{0,0,1}` and
`{1,3,5}`). -/
theorem C7_counterexample :
    CapacityScaling.log2w
        (CapacityScaling.maxCap
          (CapacityScaling.buildCS 3 [(0,1,1),(0,1,3),(0,1,5)])) + 1 = 3 ∧
    (CapacityScaling.AfterDouble 3 0 2 100 10
        (CapacityScaling.buildCS 3 [(0,1,1),(0,1,3),(0,1,5)]) 2).map
      CapacityScaling.auxTotals = some [0, 1, 2] ∧
    ([0, 1, 2] : List Nat) ≠ [0, 1, 3] ∧
    (CapacityScaling.AfterDouble 3 0 2 100 10
        (CapacityScaling.buildCS 3 [(0,1,1),(0,1,3),(0,1,5)]) 1).map
      CapacityScaling.auxTotals = some [0, 0, 1] ∧
    (CapacityScaling.AfterDouble 3 0 2 100 10
        (CapacityScaling.buildCS 3 [(0,1,1),(0,1,3),(0,1,5)]) 3).map
      CapacityScaling.auxTotals = some [1, 3, 5] :=
  ⟨rfl, rfl, by decide, rfl, rfl⟩

set_option maxHeartbeats 1000000 in
/-- C7 witness: the amended theorem applied to the `{1, 3, 5}` network at
iteration `k = 1` and the capacity-`1` arc, whose restricted value is
`⌊1/4⌋ = 0`. -/
theorem C7_scaling_witness :
    1 ≤ 1 ∧ 1 ≤ 3 ∧
    CapacityScaling.AfterDouble 3 0 2 100 10
        (CapacityScaling.buildCS 3 [(0,1,1),(0,1,3),(0,1,5)]) 1 =
      some ((CapacityScaling.AfterDouble 3 0 2 100 10
          (CapacityScaling.buildCS 3 [(0,1,1),(0,1,3),(0,1,5)]) 1).getD
        (initNet CapacityScaling.CSD 0)) ∧
    arcAt? (CapacityScaling.buildCS 3 [(0,1,1),(0,1,3),(0,1,5)]) 0 0 =
      some ⟨0, 1, 0, ⟨1, 0, true⟩⟩ ∧
    CapacityScaling.auxPairSum
        ((CapacityScaling.AfterDouble 3 0 2 100 10
            (CapacityScaling.buildCS 3 [(0,1,1),(0,1,3),(0,1,5)]) 1).getD
          (initNet CapacityScaling.CSD 0)) 0 0 = 1 / 2 ^ (3 - 1) := by
  have hfacts := CapacityScaling.buildCS_facts 3 [(0,1,1),(0,1,3),(0,1,5)]
    (by decide)
  refine ⟨by decide, by decide, rfl, rfl, ?_⟩
  exact C7_scaling (CapacityScaling.buildCS 3 [(0,1,1),(0,1,3),(0,1,5)])
    0 2 100 10 3 1
    ((CapacityScaling.AfterDouble 3 0 2 100 10
        (CapacityScaling.buildCS 3 [(0,1,1),(0,1,3),(0,1,5)]) 1).getD
      (initNet CapacityScaling.CSD 0))
    0 0 ⟨0, 1, 0, ⟨1, 0, true⟩⟩ hfacts.1 hfacts.2.2.2.1
    (fun v' i' a' ha' => by
      have hm := hfacts.2.2.2.2 v' i' a' ha'
      simp at hm
      omega)
    (Or.inl (by decide)) (by decide) (by decide) rfl rfl

end MaxFlowSpec

